import Mathlib

/-!
Verification development for the pseudobinary-C decoder
(`src/bin/pseudobinary_c_decoder.py`).

The Python module is shallowly embedded below.  Strings are modelled as
`List Char`, Python `int` as `ℤ`, and a Python `float` measurement value
as `Option (ℤ × ℕ)`: `some (z, d)` is the exact value `z / d` (the only
arithmetic the source performs on measurements is division by 1, 10 or
1000, so the divisor is carried exactly; every value is later formatted
with at least as many decimals as the divisor provides, so the binary
floating-point representation never changes a printed digit), and `none`
is the IEEE NaN produced for the `"///"` missing-data sentinel, which
propagates through scaling unchanged.  Fallible operations (Python
exceptions) are modelled with `Option`: a raised exception anywhere makes
the modelled function return `none`.
-/

namespace PBC

/-- One decimal digit character (as produced by Python's `str`/format). -/
def digitChar : ℕ → Char
  | 0 => '0'
  | 1 => '1'
  | 2 => '2'
  | 3 => '3'
  | 4 => '4'
  | 5 => '5'
  | 6 => '6'
  | 7 => '7'
  | 8 => '8'
  | 9 => '9'
  | _ => '?'

/-- Fuel-driven decimal rendering of a natural number, most significant
digit first (Python `str` of a nonnegative int). -/
def natDigitsAux : ℕ → ℕ → List Char
  | 0, _ => []
  | fuel + 1, n =>
    if n < 10 then [digitChar n]
    else natDigitsAux fuel (n / 10) ++ [digitChar (n % 10)]

/-- Decimal rendering of a natural number (`str(n)` in Python). -/
def natDigits (n : ℕ) : List Char := natDigitsAux (n + 1) n

/-- Python `str` of an int: optional minus sign then decimal digits. -/
def intStr (z : ℤ) : List Char :=
  (if z < 0 then ['-'] else []) ++ natDigits z.natAbs

/-- Left-pad a character list with `'0'` up to width `w`
(Python's `format(n, '0Nd')` for nonnegative `n`). -/
def padZero (w : ℕ) (l : List Char) : List Char :=
  List.replicate (w - l.length) '0' ++ l

/-- Python `f'{n:02d}'` for a nonnegative integer. -/
def fmt02 (n : ℕ) : List Char := padZero 2 (natDigits n)

/-- Is the character a decimal digit? -/
def isDig (c : Char) : Bool := 48 ≤ c.toNat && c.toNat ≤ 57

/-- Numeric value of a digit string (`int(s)` for an all-digit `s`),
folding left as decimal positional notation. -/
def charsVal (l : List Char) : ℕ :=
  l.foldl (fun a c => 10 * a + (c.toNat - 48)) 0

/-- Python `int(s)`: defined for nonempty all-digit strings, raises
(`none`) otherwise.  (The source only ever parses digit runs here.) -/
def pyInt (s : List Char) : Option ℕ :=
  if s ≠ [] ∧ s.all isDig then some (charsVal s) else none

/-- Python `s.zfill(2)`: left-pad with zeros to width 2, keeping a leading
sign character in place. -/
def zfill2 (s : List Char) : List Char :=
  if 2 ≤ s.length then s
  else
    match s with
    | [] => ['0', '0']
    | [c] => if c = '-' ∨ c = '+' then [c, '0'] else ['0', c]
    | s => s

/-- Python `s.split(sep)` for a single-character separator (keeps empty
pieces, like `str.split` with an explicit separator). -/
def splitOnChar : List Char → Char → List (List Char)
  | [], _ => [[]]
  | c :: rest, sep =>
    if c = sep then [] :: splitOnChar rest sep
    else
      match splitOnChar rest sep with
      | [] => [[c]]
      | h :: t => (c :: h) :: t

/-- Does `pat` occur at the start of `l`? (Python `s.startswith(pat)`.) -/
def listStarts : List Char → List Char → Bool
  | [], _ => true
  | _ :: _, [] => false
  | p :: ps, c :: cs => p == c && listStarts ps cs

/-- Does `pat` occur anywhere inside `l`? (Python `pat in s`.) -/
def containsSeq : List Char → List Char → Bool
  | pat, [] => pat.isEmpty
  | pat, c :: rest => listStarts pat (c :: rest) || containsSeq pat rest

/-- Fuel-driven worker for `replaceAll`. -/
def replaceAllAux : ℕ → List Char → List Char → List Char → List Char
  | 0, l, _, _ => l
  | fuel + 1, l, pat, rep =>
    match l with
    | [] => []
    | c :: rest =>
      if listStarts pat l then rep ++ replaceAllAux fuel (l.drop pat.length) pat rep
      else c :: replaceAllAux fuel rest pat rep

/-- Python `s.replace(pat, rep)`: replace all non-overlapping occurrences,
scanning left to right.  (The empty-pattern case never arises in the
source; we leave the string unchanged there.) -/
def replaceAll (l pat rep : List Char) : List Char :=
  if pat = [] then l else replaceAllAux (l.length + 1) l pat rep

/-- Python `s.find(ch, start)` restricted to a single character needle:
index of the first occurrence at or after `start`, if any. -/
def findFrom (l : List Char) (c : Char) (start : ℕ) : Option ℕ :=
  ((l.drop start).findIdx? (fun x => x = c)).map (· + start)

/-- Python slice `l[a:b]` for `0 ≤ a ≤ b`. -/
def pySlice (l : List Char) (a b : ℕ) : List Char := (l.drop a).take (b - a)

/-- Python list indexing `l[i]` with negative-index wrap-around; `none`
models the `IndexError` raised when the index is out of range. -/
def pyGet {α : Type} (l : List α) (i : ℤ) : Option α :=
  if 0 ≤ i then l[i.toNat]?
  else if 0 ≤ (l.length : ℤ) + i then l[((l.length : ℤ) + i).toNat]? else none

/-! ### Six-bit codec (`sixbit_to_decimal`) -/

/-- Fuel-driven binary rendering, most significant bit first
(Python `format(n, 'b')`; `natBits 0 = [false]`, i.e. `'0'`). -/
def natBitsAux : ℕ → ℕ → List Bool
  | 0, _ => []
  | fuel + 1, n =>
    if n < 2 then [n == 1]
    else natBitsAux fuel (n / 2) ++ [n % 2 == 1]

/-- Binary representation of a natural number, MSB first. -/
def natBits (n : ℕ) : List Bool := natBitsAux (n + 1) n

/-- Pad a bit string on the left with `false` to length 6
(Python `format(n, '06b')` composed with `natBits`). -/
def pad6 (l : List Bool) : List Bool := List.replicate (6 - l.length) false ++ l

/-- Unsigned value of a bit string, MSB first (`int(s, 2)`). -/
def bitsVal (l : List Bool) : ℕ :=
  l.foldl (fun a b => 2 * a + (if b then 1 else 0)) 0

/-- Result of `sixbit_to_decimal`: a numeric value, the NaN returned for
the missing-data sentinel, or a raised exception (indexing an empty
string). -/
inductive SixbitRes where
  | err : SixbitRes
  | nan : SixbitRes
  | num : ℤ → SixbitRes
deriving DecidableEq

/-- The 6-bit value of one wire character:
`ord(c) - 64 if ord(c) > 63 else ord(c)`. -/
def sixbitVal (c : Char) : ℕ :=
  if 63 < c.toNat then c.toNat - 64 else c.toNat

/-- `sixbit_to_decimal` from the source: `'///'` is the missing sentinel;
otherwise each character contributes 6 bits (MSB-first concatenation) and
the result is read as a two's-complement integer by the explicit
flip-and-add-one branch of the code. -/
def sixbit_to_decimal (cs : List Char) : SixbitRes :=
  if cs = ['/', '/', '/'] then .nan
  else
    let combined := (cs.map fun c => pad6 (natBits (sixbitVal c))).flatten
    match combined with
    | [] => .err
    | b :: _ =>
      if b then .num (-((bitsVal (combined.map fun x => !x) : ℤ) + 1))
      else .num (bitsVal combined)

/-- Unsigned value of a whole six-bit character group, base 64, MSB-first
(reference form used to state the specification's reading of the codec). -/
def sixbitUnsigned (cs : List Char) : ℕ :=
  cs.foldl (fun a c => 64 * a + sixbitVal c) 0

/-- The two's-complement integer denoted by the `6*L`-bit string obtained
from a group of `L` characters (specification's description). -/
def sixbitRef (cs : List Char) : ℤ :=
  if 2 ^ (6 * cs.length - 1) ≤ sixbitUnsigned cs then
    (sixbitUnsigned cs : ℤ) - 2 ^ (6 * cs.length)
  else (sixbitUnsigned cs : ℤ)

/-- Modelled from the spec: the encoder whose existence the round-trip law
of §8 postulates (it is not part of the repository).  The two's-complement
bit pattern of `x` in `6*L` bits is cut into `L` six-bit groups, MSB
first, and each group value `v` is carried by the character with code
`v + 64` (a character above ASCII 63, which the decoder maps back to
`v`). -/
def encodeSixbitGroups : ℕ → ℕ → List ℕ
  | 0, _ => []
  | l + 1, u => encodeSixbitGroups l (u / 64) ++ [u % 64]

/-- Modelled from the spec: full encoder for the round-trip law. -/
def encodeSixbit (x : ℤ) (l : ℕ) : List Char :=
  (encodeSixbitGroups l (x.emod (2 ^ (6 * l))).toNat).map fun v => Char.ofNat (v + 64)

/-! ### Calendar arithmetic (model of Python `datetime` dates)

Python's `datetime` implements the proleptic Gregorian calendar.  We model
a date by its year/month/day fields together with the standard conversion
to and from a linear day count (days since 1970-01-01), which is how
`timedelta` addition and `datetime` comparison behave. -/

/-- A calendar date as carried by `datetime` (year, month, day). -/
structure CivilDate where
  y : ℤ
  m : ℕ
  d : ℕ
deriving DecidableEq

/-- Day number (days since 1970-01-01) of a proleptic Gregorian date. -/
def daysFromCivil (y : ℤ) (m d : ℕ) : ℤ :=
  let y' : ℤ := if m ≤ 2 then y - 1 else y
  let era : ℤ := Int.tdiv (if 0 ≤ y' then y' else y' - 399) 400
  let yoe : ℤ := y' - era * 400
  let doy : ℤ := Int.tdiv (153 * ((m : ℤ) + (if 2 < m then -3 else 9)) + 2) 5 + (d : ℤ) - 1
  let doe : ℤ := yoe * 365 + Int.tdiv yoe 4 - Int.tdiv yoe 100 + doy
  era * 146097 + doe - 719468

/-- Inverse of `daysFromCivil`: the date of a given day number. -/
def civilFromDays (z0 : ℤ) : CivilDate :=
  let z := z0 + 719468
  let era : ℤ := Int.tdiv (if 0 ≤ z then z else z - 146096) 146097
  let doe : ℤ := z - era * 146097
  let yoe : ℤ :=
    Int.tdiv (doe - Int.tdiv doe 1460 + Int.tdiv doe 36524 - Int.tdiv doe 146096) 365
  let y : ℤ := yoe + era * 400
  let doy : ℤ := doe - (365 * yoe + Int.tdiv yoe 4 - Int.tdiv yoe 100)
  let mp : ℤ := Int.tdiv (5 * doy + 2) 153
  let d : ℤ := doy - Int.tdiv (153 * mp + 2) 5 + 1
  let m : ℤ := mp + (if mp < 10 then 3 else -9)
  ⟨y + (if m ≤ 2 then 1 else 0), m.toNat, d.toNat⟩

/-- Gregorian leap-year test. -/
def isLeapYear (y : ℤ) : Bool :=
  (Int.emod y 4 == 0 && Int.emod y 100 != 0) || Int.emod y 400 == 0

/-- Length of a month (0 for an invalid month number). -/
def daysInMonth (y : ℤ) : ℕ → ℕ
  | 1 => 31
  | 2 => if isLeapYear y then 29 else 28
  | 3 => 31
  | 4 => 30
  | 5 => 31
  | 6 => 30
  | 7 => 31
  | 8 => 31
  | 9 => 30
  | 10 => 31
  | 11 => 30
  | 12 => 31
  | _ => 0

/-- The day numbers `datetime` can represent (year 1 through year 9999). -/
def minDayZ : ℤ := daysFromCivil 1 1 1

/-- Largest representable day number (9999-12-31). -/
def maxDayZ : ℤ := daysFromCivil 9999 12 31

/-- A date `datetime` accepts: fields in range for the given month/year. -/
def ValidDate (D : CivilDate) : Prop :=
  1 ≤ D.y ∧ D.y ≤ 9999 ∧ 1 ≤ D.m ∧ D.m ≤ 12 ∧ 1 ≤ D.d ∧ D.d ≤ daysInMonth D.y D.m

instance (D : CivilDate) : Decidable (ValidDate D) := by
  unfold ValidDate; infer_instance

/-- `date.strftime('%m/%d/%Y')`: zero-padded month and day, unpadded year
(glibc behavior; identical to padded output for four-digit years). -/
def renderDate (D : CivilDate) : List Char :=
  fmt02 D.m ++ '/' :: fmt02 D.d ++ '/' :: natDigits D.y.toNat

/-- `date.strftime('%Y-%m-%d')`. -/
def renderISOdate (D : CivilDate) : List Char :=
  natDigits D.y.toNat ++ '-' :: fmt02 D.m ++ '-' :: fmt02 D.d

/-- Field validation of `strptime(s, '%m/%d/%Y')` once the three slash
separated groups are isolated: `%m` and `%d` match one or two digits,
`%Y` exactly four (CPython's `_strptime` pattern for `%Y`). -/
def parseDateTriple (ms ds ys : List Char) : Option CivilDate :=
  if ms ≠ [] ∧ ms.length ≤ 2 ∧ ms.all isDig ∧
     ds ≠ [] ∧ ds.length ≤ 2 ∧ ds.all isDig ∧
     ys ≠ [] ∧ ys.length = 4 ∧ ys.all isDig then
    if 1 ≤ (charsVal ys : ℤ) ∧ (charsVal ys : ℤ) ≤ 9999 ∧
       1 ≤ charsVal ms ∧ charsVal ms ≤ 12 ∧
       1 ≤ charsVal ds ∧ charsVal ds ≤ daysInMonth (charsVal ys : ℤ) (charsVal ms) then
      some ⟨(charsVal ys : ℤ), charsVal ms, charsVal ds⟩
    else none
  else none

/-- `datetime.strptime(s, '%m/%d/%Y')`: split on `/`, read the three
digit groups (month and day up to two digits, year exactly four), and
validate the calendar fields; raises (`none`) otherwise. -/
def parseDate (s : List Char) : Option CivilDate :=
  match splitOnChar s '/' with
  | [ms, ds, ys] => parseDateTriple ms ds ys
  | _ => none

/-- `julian_to_date` from the source: `datetime(year, 1, 1)` (raises for a
year outside 1..9999) plus `timedelta(julian - 1)` (raises when leaving
the representable range), rendered with `'%m/%d/%Y'`. -/
def julian_to_date (julian year : ℤ) : Option (List Char) :=
  if year < 1 ∨ 9999 < year then none
  else if daysFromCivil year 1 1 + (julian - 1) < minDayZ ∨
      maxDayZ < daysFromCivil year 1 1 + (julian - 1) then none
  else some (renderDate (civilFromDays (daysFromCivil year 1 1 + (julian - 1))))

/-- `strptime` on a date string followed by `timedelta(days = k)` and
`strftime('%m/%d/%Y')` (the day-rollover steps of `format_data_for_csv`). -/
def addDaysStr (s : List Char) (k : ℤ) : Option (List Char) :=
  match parseDate s with
  | none => none
  | some D =>
    if daysFromCivil D.y D.m D.d + k < minDayZ ∨ maxDayZ < daysFromCivil D.y D.m D.d + k
      then none
    else some (renderDate (civilFromDays (daysFromCivil D.y D.m D.d + k)))

/-! ### `minutes_to_time` -/

/-- `minutes_to_time` from the source: sign emitted separately, magnitude
decomposed as hours/minutes, seconds computed as
`(remaining_minutes * 60) % 60`, each field rendered `{:02d}`. -/
def minutes_to_time (minutes : ℤ) : List Char :=
  let sign : List Char := if minutes < 0 then ['-'] else []
  let mabs := minutes.natAbs
  let hours := mabs / 60
  let remaining := mabs % 60
  let seconds := (remaining * 60) % 60
  sign ++ fmt02 hours ++ ':' :: fmt02 remaining ++ ':' :: fmt02 seconds

/-! ### Block decoder (`decode_pseudobinary_c_tx`) -/

/-- One decoded sample as appended to `decoded_data` by the source:
sensor name, date string, time string, and the scaled measurement
(`none` is the NaN carried for a missing `'///'` group). -/
structure RawEntry where
  sensor : List Char
  date : List Char
  time : List Char
  measurement : Option (ℤ × ℕ)
deriving DecidableEq

/-- The static sensor-name table (32 entries, indexed 0–31). -/
def sensors : List (List Char) :=
  [ ['P','R','S'], ['R','A','D'], ['R','A','2'], ['R','A','3'], ['R','A','S'],
    ['E','N','C'], ['B','U','B'],
    ['B','A','T'], ['S','S','T'], ['A','T','M'], ['P','S','D'], ['R','S','D'],
    ['P','R','2'], ['S','W','1'],
    ['S','W','2'], ['T','S','T'], ['T','S','2'], ['T','S','3'], ['T','M','A'],
    ['W','A','V'], ['W','M','X'],
    ['W','D','R'], ['R','I','N'],
    ['A','v','a','i','l'], ['A','v','a','i','l'], ['A','v','a','i','l'],
    ['A','v','a','i','l'], ['A','v','a','i','l'], ['A','v','a','i','l'],
    ['S','W','1',' ','s','a','m','p','l','e','s'],
    ['S','W','2',' ','s','a','m','p','l','e','s'],
    ['P','R','S',' ','s','a','m','p','l','e','s'] ]

/-- The substring tested by `'samples' not in sensor`. -/
def samplesChars : List Char := ['s','a','m','p','l','e','s']

/-- Sensors whose readings are millimetres, divided by 1000. -/
def lengthSensors : List (List Char) :=
  [ ['P','R','S'], ['R','A','D'], ['R','A','2'], ['R','A','3'], ['R','A','S'],
    ['E','N','C'], ['B','U','B'], ['P','R','2'], ['T','S','T'], ['T','S','2'],
    ['T','S','3'] ]

/-- The per-sensor scaling applied to every raw decoded integer, kept as
the exact value `numerator / divisor`. -/
def scaleMeasurement (sensor : List Char) (z : ℤ) : ℤ × ℕ :=
  if sensor ∈ lengthSensors then (z, 1000)
  else if sensor = ['B','A','T'] then (z, 10)
  else if sensor = ['A','T','M'] then (z, 10)
  else if sensor = ['S','S','T'] then (z, 10)
  else (z, 1)

/-- The measurement run cut into 3-character groups
(`measurements_str[i:i+3] for i in range(0, len, 3)`; a trailing slice may
be shorter than 3). -/
def chunk3 : List Char → List (List Char)
  | [] => []
  | [a] => [[a]]
  | [a, b] => [[a, b]]
  | a :: b :: c :: rest => [a, b, c] :: chunk3 rest

/-- Decode and scale every measurement group of a block; a raised
exception inside `sixbit_to_decimal` aborts the decode (`none`), the NaN
sentinel is carried through the scaling arithmetic unchanged. -/
def decodeMeasurements (sensor : List Char) : List (List Char) → Option (List (Option (ℤ × ℕ)))
  | [] => some []
  | g :: gs =>
    match sixbit_to_decimal g with
    | .err => none
    | .nan => (decodeMeasurements sensor gs).map (fun rest => none :: rest)
    | .num z => (decodeMeasurements sensor gs).map (fun rest => some (scaleMeasurement sensor z) :: rest)

/-- Locate the start of the next block: first `'+'` at offset ≥ 8, else
first `'.'` at offset ≥ 8, else the end of the data. -/
def nextBlockStart (data : List Char) : ℕ :=
  match findFrom data '+' 8 with
  | some i => i
  | none =>
    match findFrom data '.' 8 with
    | some i => i
    | none => data.length

/-- One iteration of the block loop of `decode_pseudobinary_c_tx`,
executed on a nonempty payload whose head is not `'.'`: returns the
records this block contributes and the remaining payload, or `none` when
any step raises. -/
def processBlock (data : List Char) (year : ℤ) (now : ℤ) : Option (List RawEntry × List Char) :=
  match data[1]? with
  | none => none
  | some c1 =>
    let midx : ℤ := (c1.toNat : ℤ) - 65
    match sixbit_to_decimal (pySlice data 2 4) with
    | .num day =>
      match julian_to_date day year with
      | none => none
      | some dateS =>
        match parseDate dateS with
        | none => none
        | some dd =>
          let dateS' :=
            if 86400 * daysFromCivil dd.y dd.m dd.d > now ∧ 365 ≤ day then
              replaceAll dateS (intStr year) (intStr (year - 1))
            else dateS
          match pyGet sensors midx with
          | none => none
          | some sensor =>
            match sixbit_to_decimal (pySlice data 4 6) with
            | .num ts0 =>
              match sixbit_to_decimal (pySlice data 6 8) with
              | .num iv =>
                let timeStart := ts0 - 1
                let nbs := nextBlockStart data
                match decodeMeasurements sensor (chunk3 (pySlice data 8 nbs)) with
                | none => none
                | some ms =>
                  let recs :=
                    if containsSeq samplesChars sensor then ([] : List RawEntry)
                    else ms.enum.map fun p =>
                      { sensor := sensor
                        date := dateS'
                        time := minutes_to_time (timeStart - (p.1 : ℤ) * iv)
                        measurement := p.2 }
                  some (recs, data.drop nbs)
              | _ => none
            | _ => none
    | _ => none

/-- The `while` loop of `decode_pseudobinary_c_tx`, driven by fuel (each
iteration either consumes at least 8 characters or empties the payload, so
`length + 1` fuel always suffices). -/
def decodeLoop : ℕ → List Char → ℤ → ℤ → Option (List RawEntry)
  | 0, _, _, _ => none
  | fuel + 1, data, year, now =>
    match data with
    | [] => some []
    | c :: _ =>
      if c = '.' then some []
      else
        match processBlock data year now with
        | none => none
        | some (recs, rest) =>
          match decodeLoop fuel rest year now with
          | none => none
          | some more => some (recs ++ more)

/-- The pre-amble handling of the source: prepend a synthetic `'0'` when
the message starts directly with a channel marker, then strip the
3-character message identifier. -/
def preprocess (data : List Char) : List Char :=
  let d1 :=
    if data.take 3 = ['C','1','+'] ∨ data.take 3 = ['C','2','+'] ∨
       data.take 3 = ['C','3','+'] ∨ data.take 3 = ['C','4','+'] then '0' :: data
    else data
  d1.drop 3

/-- `decode_pseudobinary_c_tx` from the source.  `now` is the injected
current processing instant (`datetime.utcnow()`), in seconds since
1970-01-01. -/
def decode_pseudobinary_c_tx (data : List Char) (year : ℤ) (now : ℤ) : Option (List RawEntry) :=
  let d := preprocess data
  decodeLoop (d.length + 1) d year now

/-- The payload states the block loop visits: starting from the
preprocessed payload, each successfully processed block (whose head is
not the `'.'` terminator) hands the loop its remaining payload. -/
inductive ReachesBlock (year now : ℤ) : List Char → List Char → Prop
  | refl (d : List Char) : ReachesBlock year now d d
  | step (c : Char) (d rest e : List Char) (recs : List RawEntry) :
      c ≠ '.' →
      processBlock (c :: d) year now = some (recs, rest) →
      ReachesBlock year now rest e →
      ReachesBlock year now (c :: d) e

/-! ### CSV formatter (`format_data_for_csv`) -/

/-- One output record: combined timestamp, 3-character sensor tag, and the
formatted measurement string. -/
structure FormattedRecord where
  time : List Char
  sensor : List Char
  data : List Char
deriving DecidableEq

/-- `datetime(2000, 1, 1, 0, 0) - timedelta(minutes=mm)` rendered with
`'%H:%M:%S'`: the time-of-day `mm` minutes before midnight (seconds are
always zero because the delta is a whole number of minutes). -/
def midnightMinus (mm : ℕ) : List Char :=
  let t := (1440 - mm % 1440) % 1440
  fmt02 (t / 60) ++ ':' :: fmt02 (t % 60) ++ ':' :: fmt02 0

/-- The `time_hh == '24'` normalization step: advance the date one day and
replace the time with `00:MM`. -/
def normTime24 (dateS hh t1 : List Char) : Option (List Char × List Char) :=
  if hh = ['2', '4'] then
    (addDaysStr dateS 1).map fun d' => (d', '0' :: '0' :: ':' :: t1)
  else some (dateS, hh ++ ':' :: t1)

/-- The `time_hh.startswith('-')` normalization step: time-of-day becomes
midnight minus the minutes field, and the date steps back one day. -/
def normTimeNeg (dateS hh t1 : List Char) (tB : List Char) : Option (List Char × List Char) :=
  if hh.head? = some '-' then
    match pyInt t1, addDaysStr dateS (-1) with
    | some mm, some d2 => some (d2, midnightMinus mm)
    | _, _ => none
  else some (dateS, tB)

/-- Decimal places used for a (already truncated) sensor tag. -/
def precForSensor (s : List Char) : ℕ :=
  if s = ['S','W','1'] ∨ s = ['S','W','2'] then 0
  else if s = ['B','A','T'] ∨ s = ['A','T','M'] ∨ s = ['S','S','T'] ∨ s = ['R','S','D'] then 1
  else 3

/-- Round the exact quotient `a / b` (with `b > 0`) to the nearest
integer, ties to even (the rounding used by Python's fixed-point float
formatting). -/
def roundHalfEven (a : ℤ) (b : ℕ) : ℤ :=
  let q := Int.fdiv a (b : ℤ)
  let r := a - q * (b : ℤ)
  if 2 * r < (b : ℤ) then q
  else if (b : ℤ) < 2 * r then q + 1
  else if Int.emod q 2 = 0 then q else q + 1

/-- `'{:.Nf}'.format(v)` for the exact value `z / d`: fixed-point
rendering with `prec` decimal places (none, and no decimal point, when
`prec = 0`). -/
def fmtFixed (v : ℤ × ℕ) (prec : ℕ) : List Char :=
  let n := roundHalfEven (v.1 * (10 : ℤ) ^ prec) v.2
  let sign : List Char := if n < 0 then ['-'] else []
  let ds := padZero (prec + 1) (natDigits n.natAbs)
  if prec = 0 then sign ++ ds
  else sign ++ ds.take (ds.length - prec) ++ '.' :: ds.drop (ds.length - prec)

/-- Format a measurement value; Python renders a NaN float as the literal
text `nan` under every `'{:.Nf}'` format. -/
def formatMeas (v : Option (ℤ × ℕ)) (prec : ℕ) : List Char :=
  match v with
  | none => ['n', 'a', 'n']
  | some q => fmtFixed q prec

/-- The per-entry body of `format_data_for_csv`: time splitting, the two
hour normalizations, seconds completion, timestamp assembly, sensor
truncation and measurement formatting.  `none` models a raised
exception. -/
def formatEntry (e : RawEntry) : Option FormattedRecord :=
  match splitOnChar e.time ':' with
  | t0 :: t1 :: _ =>
    let hh := zfill2 t0
    match normTime24 e.date hh t1 with
    | none => none
    | some (d1, tB) =>
      match normTimeNeg d1 hh t1 tB with
      | none => none
      | some (d2, tC) =>
        let tD := if tC.count ':' = 1 then tC ++ [':', '0', '0'] else tC
        match parseDate d2 with
        | none => none
        | some D =>
          some { time := renderISOdate D ++ ' ' :: tD ++ ['+','0','0',':','0','0']
                 sensor := e.sensor.take 3
                 data := formatMeas e.measurement (precForSensor (e.sensor.take 3)) }
  | _ => none

/-- Apply `formatEntry` to every decoded entry, aborting on a raised
exception (Python would propagate it out of the loop). -/
def formatAll : List RawEntry → Option (List FormattedRecord)
  | [] => some []
  | e :: rest =>
    match formatEntry e, formatAll rest with
    | some r, some rs => some (r :: rs)
    | _, _ => none

/-- Lexicographic strict order on character lists by code point
(Python string `<`). -/
def lexLt : List Char → List Char → Bool
  | [], [] => false
  | [], _ :: _ => true
  | _ :: _, [] => false
  | a :: as', b :: bs' =>
    if a.toNat < b.toNat then true
    else if b.toNat < a.toNat then false
    else lexLt as' bs'

/-- Stable insertion used to model `sorted(..., reverse=True)`. -/
def insertDesc (x : FormattedRecord) : List FormattedRecord → List FormattedRecord
  | [] => [x]
  | y :: ys => if lexLt x.time y.time then y :: insertDesc x ys else x :: y :: ys

/-- `sorted(formatted_data, key=lambda x: x['time'], reverse=True)`:
stable descending sort by the timestamp string. -/
def sortDesc (l : List FormattedRecord) : List FormattedRecord :=
  l.foldr insertDesc []

/-- `format_data_for_csv` from the source. -/
def format_data_for_csv (l : List RawEntry) : Option (List FormattedRecord) :=
  (formatAll l).map sortDesc

/-- The decode-then-format composition used by
`process_pseudobinary_file`. -/
def decodeAndFormat (data : List Char) (year now : ℤ) : Option (List FormattedRecord) :=
  (decode_pseudobinary_c_tx data year now).bind format_data_for_csv

/-! ### Lemmas: decimal digit strings -/

theorem digitChar_isDig {k : ℕ} (h : k < 10) : isDig (digitChar k) = true := by
  interval_cases k <;> decide

theorem digitChar_toNat {k : ℕ} (h : k < 10) : (digitChar k).toNat = 48 + k := by
  interval_cases k <;> decide

theorem natDigitsAux_irrel : ∀ f1 f2 n, n < f1 → n < f2 →
    natDigitsAux f1 n = natDigitsAux f2 n := by
  intro f1
  induction f1 with
  | zero => intro f2 n h1 _; omega
  | succ g1 ih =>
    intro f2 n h1 h2
    cases f2 with
    | zero => omega
    | succ g2 =>
      simp only [natDigitsAux]
      by_cases h : n < 10
      · simp [h]
      · have hd : n / 10 < n := Nat.div_lt_self (by omega) (by omega)
        simp only [if_neg h]
        rw [ih g2 (n / 10) (by omega) (by omega)]

theorem natDigitsAux_succ (fuel n : ℕ) :
    natDigitsAux (fuel + 1) n =
      if n < 10 then [digitChar n] else natDigitsAux fuel (n / 10) ++ [digitChar (n % 10)] := rfl

theorem natDigits_lt10 {n : ℕ} (h : n < 10) : natDigits n = [digitChar n] := by
  simp [natDigits, natDigitsAux_succ, h]

theorem natDigits_ge10 {n : ℕ} (h : 10 ≤ n) :
    natDigits n = natDigits (n / 10) ++ [digitChar (n % 10)] := by
  have hd : n / 10 < n := Nat.div_lt_self (by omega) (by omega)
  rw [natDigits, natDigitsAux_succ, if_neg (by omega : ¬ n < 10)]
  congr 1
  exact natDigitsAux_irrel n (n / 10 + 1) (n / 10) (by omega) (by omega)

theorem natDigits_ne_nil (n : ℕ) : natDigits n ≠ [] := by
  by_cases h : n < 10
  · rw [natDigits_lt10 h]; simp
  · rw [natDigits_ge10 (by omega)]; simp

theorem natDigits_all_isDig : ∀ n, ∀ c ∈ natDigits n, isDig c = true := by
  intro n
  induction n using Nat.strong_induction_on with
  | _ n ih =>
    intro c hc
    by_cases h : n < 10
    · rw [natDigits_lt10 h] at hc
      simp at hc
      rw [hc]; exact digitChar_isDig h
    · rw [natDigits_ge10 (by omega)] at hc
      have hd : n / 10 < n := Nat.div_lt_self (by omega) (by omega)
      rcases List.mem_append.mp hc with h1 | h2
      · exact ih (n / 10) hd c h1
      · simp at h2
        rw [h2]; exact digitChar_isDig (Nat.mod_lt _ (by omega))

theorem charsVal_append_singleton (l : List Char) (c : Char) :
    charsVal (l ++ [c]) = 10 * charsVal l + (c.toNat - 48) := by
  simp [charsVal, List.foldl_append]

theorem charsVal_natDigits : ∀ n, charsVal (natDigits n) = n := by
  intro n
  induction n using Nat.strong_induction_on with
  | _ n ih =>
    by_cases h : n < 10
    · rw [natDigits_lt10 h]
      simp [charsVal, digitChar_toNat h]
    · have hd : n / 10 < n := Nat.div_lt_self (by omega) (by omega)
      rw [natDigits_ge10 (by omega), charsVal_append_singleton, ih (n / 10) hd,
        digitChar_toNat (Nat.mod_lt _ (by omega))]
      omega

theorem charsVal_cons_zero (l : List Char) : charsVal ('0' :: l) = charsVal l := by
  simp [charsVal]

theorem natDigits_length_le : ∀ k n, n < 10 ^ (k + 1) → (natDigits n).length ≤ k + 1 := by
  intro k
  induction k with
  | zero =>
    intro n h
    rw [natDigits_lt10 (by simpa using h)]
    simp
  | succ j ih =>
    intro n h
    by_cases h10 : n < 10
    · rw [natDigits_lt10 h10]; simp
    · rw [natDigits_ge10 (by omega)]
      have : n / 10 < 10 ^ (j + 1) := by
        rw [Nat.div_lt_iff_lt_mul (by omega)]
        calc n < 10 ^ (j + 1 + 1) := h
        _ = 10 ^ (j + 1) * 10 := by ring
      have := ih (n / 10) this
      simp only [List.length_append, List.length_cons, List.length_nil]
      omega

theorem natDigits_length_ge : ∀ k n, 10 ^ k ≤ n → k + 1 ≤ (natDigits n).length := by
  intro k
  induction k with
  | zero => intro n _; have := natDigits_ne_nil n
            have : (natDigits n).length ≠ 0 := by simpa [List.length_eq_zero]
            omega
  | succ j ih =>
    intro n h
    have h10' : 10 ≤ n := by
      calc 10 = 10 ^ 1 := by ring
      _ ≤ 10 ^ (j + 1) := Nat.pow_le_pow_right (by omega) (by omega)
      _ ≤ n := h
    rw [natDigits_ge10 h10']
    have hq : 10 ^ j ≤ n / 10 := by
      rw [Nat.le_div_iff_mul_le (by omega)]
      calc 10 ^ j * 10 = 10 ^ (j + 1) := by ring
      _ ≤ n := h
    have := ih (n / 10) hq
    simp only [List.length_append, List.length_cons, List.length_nil]
    omega

theorem natDigits_length4 {n : ℕ} (h1 : 1000 ≤ n) (h2 : n ≤ 9999) :
    (natDigits n).length = 4 := by
  have ha := natDigits_length_le 3 n (by omega)
  have hb := natDigits_length_ge 3 n (by omega)
  omega

theorem fmt02_eq_pair {n : ℕ} (h : n ≤ 99) :
    fmt02 n = [digitChar (n / 10), digitChar (n % 10)] := by
  by_cases h10 : n < 10
  · rw [fmt02, natDigits_lt10 h10]
    have h0 : n / 10 = 0 := Nat.div_eq_of_lt h10
    have hm : n % 10 = n := Nat.mod_eq_of_lt h10
    simp [padZero, h0, hm, digitChar, List.replicate]
  · rw [fmt02, natDigits_ge10 (by omega), natDigits_lt10 (by omega : n / 10 < 10)]
    simp [padZero, List.replicate]

theorem fmt02_length {n : ℕ} (h : n ≤ 99) : (fmt02 n).length = 2 := by
  rw [fmt02_eq_pair h]; simp

theorem fmt02_all_isDig : ∀ n, ∀ c ∈ fmt02 n, isDig c = true := by
  intro n c hc
  rcases List.mem_append.mp hc with h1 | h2
  · have : c = '0' := by
      have := List.eq_of_mem_replicate h1
      exact this
    rw [this]; decide
  · exact natDigits_all_isDig n c h2

theorem charsVal_fmt02 {n : ℕ} (h : n ≤ 99) : charsVal (fmt02 n) = n := by
  rw [fmt02_eq_pair h]
  have ha := digitChar_toNat (Nat.div_lt_of_lt_mul (by omega) : n / 10 < 10)
  have hb := digitChar_toNat (Nat.mod_lt n (show 0 < 10 by omega))
  simp [charsVal, ha, hb]
  omega

theorem isDig_range {c : Char} (h : isDig c = true) : 48 ≤ c.toNat ∧ c.toNat ≤ 57 := by
  simpa [isDig, Bool.and_eq_true, decide_eq_true_iff] using h

theorem isDig_ne_of_toNat {c d : Char} (h : isDig c = true) (hd : d.toNat < 48 ∨ 57 < d.toNat) :
    c ≠ d := by
  intro he
  rcases isDig_range h with ⟨h1, h2⟩
  rw [he] at h1 h2
  omega

theorem fmt02_eq_24_iff (n : ℕ) : fmt02 n = ['2', '4'] ↔ n = 24 := by
  constructor
  · intro h
    by_cases h99 : n ≤ 99
    · rw [fmt02_eq_pair h99] at h
      have h1 : digitChar (n / 10) = '2' := by
        have := congrArg (fun l => l.headI) h; simpa using this
      have h2 : digitChar (n % 10) = '4' := by
        have := congrArg (fun l => l.tail.headI) h; simpa using this
      have ha : (digitChar (n / 10)).toNat = 50 := by rw [h1]; decide
      have hb : (digitChar (n % 10)).toNat = 52 := by rw [h2]; decide
      rw [digitChar_toNat (by omega : n / 10 < 10)] at ha
      rw [digitChar_toNat (Nat.mod_lt n (by omega))] at hb
      omega
    · exfalso
      have hlen : (fmt02 n).length = 2 := by rw [h]; simp
      have : 3 ≤ (natDigits n).length := natDigits_length_ge 2 n (by omega)
      have : (fmt02 n).length = (natDigits n).length := by
        simp only [fmt02, padZero, List.length_append, List.length_replicate]
        omega
      omega
  · rintro rfl; decide

/-! ### Lemmas: splitting and basic string structure -/

theorem splitOnChar_ne_nil (l : List Char) (sep : Char) : splitOnChar l sep ≠ [] := by
  induction l with
  | nil => simp [splitOnChar]
  | cons c rest ih =>
    by_cases h : c = sep
    · simp [splitOnChar, h]
    · simp only [splitOnChar, if_neg h]
      cases hs : splitOnChar rest sep with
      | nil => simp
      | cons a t => simp

theorem splitOnChar_nosep {l : List Char} {sep : Char} (h : ∀ x ∈ l, x ≠ sep) :
    splitOnChar l sep = [l] := by
  induction l with
  | nil => rfl
  | cons c rest ih =>
    have hc : c ≠ sep := h c (by simp)
    have ih' := ih (fun x hx => h x (by simp [hx]))
    simp [splitOnChar, if_neg hc, ih']

theorem splitOnChar_append {l1 : List Char} (l2 : List Char) {sep : Char}
    (h : ∀ x ∈ l1, x ≠ sep) :
    splitOnChar (l1 ++ sep :: l2) sep = l1 :: splitOnChar l2 sep := by
  induction l1 with
  | nil => simp [splitOnChar]
  | cons c rest ih =>
    have hc : c ≠ sep := h c (by simp)
    have ih' := ih (fun x hx => h x (by simp [hx]))
    simp only [List.cons_append, splitOnChar, if_neg hc, List.append_eq, ih']

theorem fmt02_no_colon (n : ℕ) : ∀ x ∈ fmt02 n, x ≠ ':' := fun x hx =>
  isDig_ne_of_toNat (fmt02_all_isDig n x hx) (by right; decide)

theorem fmt02_no_slash (n : ℕ) : ∀ x ∈ fmt02 n, x ≠ '/' := fun x hx =>
  isDig_ne_of_toNat (fmt02_all_isDig n x hx) (by left; decide)

theorem natDigits_no_slash (n : ℕ) : ∀ x ∈ natDigits n, x ≠ '/' := fun x hx =>
  isDig_ne_of_toNat (natDigits_all_isDig n x hx) (by left; decide)

/-- The time string produced by `minutes_to_time` splits on `':'` into the
signed hour token, the two-digit minutes, and `"00"`. -/
theorem minutes_to_time_split (m : ℤ) :
    splitOnChar (minutes_to_time m) ':' =
      [(if m < 0 then ['-'] else []) ++ fmt02 (m.natAbs / 60),
       fmt02 (m.natAbs % 60), ['0', '0']] := by
  have hsec : m.natAbs % 60 * 60 % 60 = 0 := Nat.mul_mod_left _ _
  have h00 : fmt02 0 = ['0', '0'] := by decide
  rw [minutes_to_time]
  simp only [hsec, h00]
  have hsign : ∀ x ∈ (if m < 0 then ['-'] else []) ++ fmt02 (m.natAbs / 60), x ≠ ':' := by
    intro x hx
    rcases List.mem_append.mp hx with h1 | h2
    · split at h1
      · simp at h1; rw [h1]; decide
      · simp at h1
    · exact fmt02_no_colon _ x h2
  rw [show ((if m < 0 then ['-'] else []) ++ fmt02 (m.natAbs / 60) ++
        ':' :: fmt02 (m.natAbs % 60) ++ ':' :: ['0', '0']) =
      (((if m < 0 then ['-'] else []) ++ fmt02 (m.natAbs / 60)) ++
        ':' :: (fmt02 (m.natAbs % 60) ++ ':' :: ['0', '0'])) from by
    simp [List.append_assoc]]
  rw [splitOnChar_append _ hsign,
    splitOnChar_append _ (fmt02_no_colon _),
    splitOnChar_nosep (by intro x hx; simp at hx; subst hx; decide)]

theorem zfill2_noop {s : List Char} (h : 2 ≤ s.length) : zfill2 s = s := by
  simp [zfill2, h]

/-! ### Lemmas: date rendering and parsing -/

theorem daysInMonth_le31 (y : ℤ) (m : ℕ) : daysInMonth y m ≤ 31 := by
  unfold daysInMonth
  split <;> (try split) <;> omega

/-- `strptime` undoes `strftime('%m/%d/%Y')` on every representable
date. -/
theorem parse_renderDate {D : CivilDate} (h : ValidDate D) (hya : 1000 ≤ D.y) :
    parseDate (renderDate D) = some D := by
  obtain ⟨hy1, hy2, hm1, hm2, hd1, hd2⟩ := h
  set y := D.y with hy
  set m := D.m with hm
  set d := D.d with hd
  have hdim := daysInMonth_le31 y m
  have hm99 : m ≤ 99 := by omega
  have hd99 : d ≤ 99 := by omega
  unfold parseDate renderDate
  simp only [List.cons_append, List.append_assoc]
  rw [splitOnChar_append _ (fmt02_no_slash _), splitOnChar_append _ (fmt02_no_slash _),
    splitOnChar_nosep (natDigits_no_slash _)]
  show parseDateTriple (fmt02 m) (fmt02 d) (natDigits y.toNat) = some D
  have hne1 : fmt02 m ≠ [] := by
    have := fmt02_length hm99; intro hc; rw [hc] at this; simp at this
  have hne2 : fmt02 d ≠ [] := by
    have := fmt02_length hd99; intro hc; rw [hc] at this; simp at this
  have hcy : charsVal (natDigits y.toNat) = y.toNat := charsVal_natDigits _
  have hcyz : (charsVal (natDigits y.toNat) : ℤ) = y := by rw [hcy]; omega
  have hA : fmt02 m ≠ [] ∧ (fmt02 m).length ≤ 2 ∧ (fmt02 m).all isDig ∧
      fmt02 d ≠ [] ∧ (fmt02 d).length ≤ 2 ∧ (fmt02 d).all isDig ∧
      natDigits y.toNat ≠ [] ∧ (natDigits y.toNat).length = 4 ∧ (natDigits y.toNat).all isDig := by
    refine ⟨hne1, by rw [fmt02_length hm99], List.all_eq_true.mpr (fmt02_all_isDig m),
      hne2, by rw [fmt02_length hd99], List.all_eq_true.mpr (fmt02_all_isDig d),
      natDigits_ne_nil _, natDigits_length4 (by omega) (by omega),
      List.all_eq_true.mpr (natDigits_all_isDig y.toNat)⟩
  rw [parseDateTriple, if_pos hA, if_pos]
  · rw [hcyz, charsVal_fmt02 hm99, charsVal_fmt02 hd99]
  · rw [hcyz, charsVal_fmt02 hm99, charsVal_fmt02 hd99]
    exact ⟨by omega, by omega, hm1, hm2, hd1, hd2⟩

/-! ### Lemmas: bit strings and the six-bit codec -/

theorem bitsVal_foldl_acc : ∀ (l : List Bool) (a : ℕ),
    l.foldl (fun a b => 2 * a + (if b then 1 else 0)) a = a * 2 ^ l.length + bitsVal l := by
  intro l
  induction l with
  | nil => intro a; simp [bitsVal]
  | cons b t ih =>
    intro a
    simp only [List.foldl_cons, List.length_cons, bitsVal]
    rw [ih (2 * a + (if b then 1 else 0)), ih (2 * 0 + (if b then 1 else 0))]
    ring

theorem bitsVal_cons (b : Bool) (t : List Bool) :
    bitsVal (b :: t) = (if b then 1 else 0) * 2 ^ t.length + bitsVal t := by
  have := bitsVal_foldl_acc t (if b then 1 else 0)
  simp only [bitsVal, List.foldl_cons]
  rw [show (2 * 0 + (if b then 1 else 0)) = (if b then 1 else 0) from by omega] at *
  exact this

theorem bitsVal_append (l1 l2 : List Bool) :
    bitsVal (l1 ++ l2) = bitsVal l1 * 2 ^ l2.length + bitsVal l2 := by
  have := bitsVal_foldl_acc l2 (bitsVal l1)
  simp only [bitsVal, List.foldl_append] at *
  exact this

theorem bitsVal_lt (l : List Bool) : bitsVal l < 2 ^ l.length := by
  induction l with
  | nil => simp [bitsVal]
  | cons b t ih =>
    rw [bitsVal_cons]
    have h2 : (2 : ℕ) ^ (b :: t).length = 2 * 2 ^ t.length := by
      simp [List.length_cons, pow_succ]; ring
    rw [h2]
    have hb : (if b then 1 else 0) ≤ 1 := by split <;> omega
    have : (if b then (1:ℕ) else 0) * 2 ^ t.length ≤ 2 ^ t.length := by
      split <;> omega
    omega

theorem bitsVal_map_not (l : List Bool) :
    bitsVal (l.map fun x => !x) = 2 ^ l.length - 1 - bitsVal l := by
  induction l with
  | nil => simp [bitsVal]
  | cons b t ih =>
    simp only [List.map_cons]
    rw [bitsVal_cons, bitsVal_cons, ih]
    have hl := bitsVal_lt t
    have h2 : (2 : ℕ) ^ (b :: t).length = 2 * 2 ^ t.length := by
      simp [List.length_cons, pow_succ]; ring
    simp only [List.length_map, List.length_cons, h2]
    cases b <;> (simp; omega)

theorem bitsVal_head_true_iff (b : Bool) (t : List Bool) :
    2 ^ t.length ≤ bitsVal (b :: t) ↔ b = true := by
  rw [bitsVal_cons]
  have := bitsVal_lt t
  cases b
  · simp
    omega
  · simp

theorem bitsVal_replicate_false (k : ℕ) (l : List Bool) :
    bitsVal (List.replicate k false ++ l) = bitsVal l := by
  induction k with
  | zero => simp
  | succ j ih =>
    rw [List.replicate_succ, List.cons_append, bitsVal_cons, ih]
    simp

theorem natBitsAux_irrel : ∀ f1 f2 n, n < f1 → n < f2 →
    natBitsAux f1 n = natBitsAux f2 n := by
  intro f1
  induction f1 with
  | zero => intro f2 n h1 _; omega
  | succ g1 ih =>
    intro f2 n h1 h2
    cases f2 with
    | zero => omega
    | succ g2 =>
      simp only [natBitsAux]
      by_cases h : n < 2
      · simp [h]
      · have hd : n / 2 < n := Nat.div_lt_self (by omega) (by omega)
        simp only [if_neg h]
        rw [ih g2 (n / 2) (by omega) (by omega)]

theorem natBitsAux_succ (fuel n : ℕ) :
    natBitsAux (fuel + 1) n =
      if n < 2 then [n == 1] else natBitsAux fuel (n / 2) ++ [n % 2 == 1] := rfl

theorem natBits_lt2 {n : ℕ} (h : n < 2) : natBits n = [n == 1] := by
  simp [natBits, natBitsAux_succ, h]

theorem natBits_ge2 {n : ℕ} (h : 2 ≤ n) :
    natBits n = natBits (n / 2) ++ [n % 2 == 1] := by
  have hd : n / 2 < n := Nat.div_lt_self (by omega) (by omega)
  rw [natBits, natBitsAux_succ, if_neg (by omega : ¬ n < 2)]
  congr 1
  exact natBitsAux_irrel n (n / 2 + 1) (n / 2) (by omega) (by omega)

theorem bitsVal_natBits : ∀ n, bitsVal (natBits n) = n := by
  intro n
  induction n using Nat.strong_induction_on with
  | _ n ih =>
    by_cases h : n < 2
    · rw [natBits_lt2 h]
      interval_cases n <;> decide
    · have hd : n / 2 < n := Nat.div_lt_self (by omega) (by omega)
      rw [natBits_ge2 (by omega), bitsVal_append, ih (n / 2) hd]
      have : bitsVal [n % 2 == 1] = n % 2 := by
        have := Nat.mod_two_eq_zero_or_one n
        rcases this with h0 | h1
        · rw [h0]; decide
        · rw [h1]; decide
      rw [this]
      simp only [List.length_cons, List.length_nil, pow_one]
      omega

theorem natBits_length_le : ∀ k n, n < 2 ^ (k + 1) → (natBits n).length ≤ k + 1 := by
  intro k
  induction k with
  | zero =>
    intro n h
    rw [natBits_lt2 (by simpa using h)]
    simp
  | succ j ih =>
    intro n h
    by_cases h2 : n < 2
    · rw [natBits_lt2 h2]; simp
    · rw [natBits_ge2 (by omega)]
      have hq : n / 2 < 2 ^ (j + 1) := by
        rw [Nat.div_lt_iff_lt_mul (by omega)]
        calc n < 2 ^ (j + 1 + 1) := h
        _ = 2 ^ (j + 1) * 2 := by ring
      have := ih (n / 2) hq
      simp only [List.length_append, List.length_cons, List.length_nil]
      omega

theorem pad6_length {l : List Bool} (h : l.length ≤ 6) : (pad6 l).length = 6 := by
  simp only [pad6, List.length_append, List.length_replicate]
  omega

theorem bitsVal_pad6 (l : List Bool) : bitsVal (pad6 l) = bitsVal l :=
  bitsVal_replicate_false _ l

/-- The 6-bit block of one character with value below 64: length exactly 6
and unsigned value `sixbitVal c`. -/
theorem sixbit_block_spec {c : Char} (h : sixbitVal c < 64) :
    (pad6 (natBits (sixbitVal c))).length = 6 ∧
      bitsVal (pad6 (natBits (sixbitVal c))) = sixbitVal c := by
  refine ⟨pad6_length (natBits_length_le 5 _ (by omega)), ?_⟩
  rw [bitsVal_pad6, bitsVal_natBits]

theorem sixbitUnsigned_foldl_acc : ∀ (l : List Char) (a : ℕ),
    l.foldl (fun a c => 64 * a + sixbitVal c) a = a * 64 ^ l.length + sixbitUnsigned l := by
  intro l
  induction l with
  | nil => intro a; simp [sixbitUnsigned]
  | cons c t ih =>
    intro a
    have h1 := ih (64 * a + sixbitVal c)
    have h2 := ih (64 * 0 + sixbitVal c)
    simp only [List.foldl_cons, List.length_cons, sixbitUnsigned] at *
    rw [h1, h2]
    ring

theorem sixbitUnsigned_cons (c : Char) (t : List Char) :
    sixbitUnsigned (c :: t) = sixbitVal c * 64 ^ t.length + sixbitUnsigned t := by
  have := sixbitUnsigned_foldl_acc t (64 * 0 + sixbitVal c)
  simp only [sixbitUnsigned, List.foldl_cons] at *
  rw [this]
  ring

theorem sixbitUnsigned_append_singleton (l : List Char) (c : Char) :
    sixbitUnsigned (l ++ [c]) = 64 * sixbitUnsigned l + sixbitVal c := by
  simp only [sixbitUnsigned, List.foldl_append, List.foldl_cons, List.foldl_nil]

/-- Length and unsigned value of the concatenated bit string of a
character group whose per-character values are all below 64. -/
theorem sixbit_flatten_spec : ∀ cs : List Char, (∀ c ∈ cs, sixbitVal c < 64) →
    ((cs.map fun c => pad6 (natBits (sixbitVal c))).flatten).length = 6 * cs.length ∧
      bitsVal ((cs.map fun c => pad6 (natBits (sixbitVal c))).flatten) = sixbitUnsigned cs := by
  intro cs
  induction cs with
  | nil => intro _; constructor <;> simp [bitsVal, sixbitUnsigned]
  | cons c t ih =>
    intro h
    obtain ⟨ihl, ihv⟩ := ih (fun x hx => h x (by simp [hx]))
    obtain ⟨hbl, hbv⟩ := sixbit_block_spec (h c (by simp))
    constructor
    · simp only [List.map_cons, List.flatten_cons, List.length_append, ihl, hbl,
        List.length_cons]
      ring
    · simp only [List.map_cons, List.flatten_cons]
      rw [bitsVal_append, ihl, ihv, hbv, sixbitUnsigned_cons]
      congr 1
      congr 1
      rw [show (64 : ℕ) = 2 ^ 6 from rfl, ← pow_mul]

/-- Core correctness of the codec's flip-and-negate branch: on any
non-sentinel group of characters with codes below 128 it returns exactly
the two's-complement reading of the concatenated 6-bit string. -/
theorem sixbit_twoscomp {cs : List Char} (h1 : cs ≠ []) (h2 : cs ≠ ['/', '/', '/'])
    (h3 : ∀ c ∈ cs, c.toNat < 128) : sixbit_to_decimal cs = .num (sixbitRef cs) := by
  have hv : ∀ c ∈ cs, sixbitVal c < 64 := by
    intro c hc
    have := h3 c hc
    unfold sixbitVal
    split <;> omega
  obtain ⟨hlen, hval⟩ := sixbit_flatten_spec cs hv
  have hLpos : 1 ≤ 6 * cs.length := by
    have : cs.length ≠ 0 := fun h => h1 (List.length_eq_zero.mp h)
    omega
  unfold sixbit_to_decimal
  rw [if_neg h2]
  simp only
  cases hc : (cs.map fun c => pad6 (natBits (sixbitVal c))).flatten with
  | nil =>
    exfalso
    have h0 : (6 : ℕ) * cs.length = 0 := by rw [← hlen, hc]; rfl
    omega
  | cons b t =>
    rw [hc] at hlen hval
    have hL : t.length = 6 * cs.length - 1 := by
      simp only [List.length_cons] at hlen
      omega
    have hhead := bitsVal_head_true_iff b t
    rw [hval, hL] at hhead
    have hbound : sixbitUnsigned cs < 2 ^ (6 * cs.length) := by
      have := bitsVal_lt (b :: t)
      rw [hval] at this
      simpa [hlen] using this
    cases b with
    | false =>
      simp only [Bool.false_eq_true, iff_false, not_le] at hhead
      simp only [if_neg (by simp : ¬ (false = true))]
      rw [hval, sixbitRef, if_neg (not_le.mpr hhead)]
    | true =>
      simp only [iff_true] at hhead
      simp only [if_pos rfl]
      have hflip : bitsVal ((true :: t).map fun x => !x) =
          2 ^ (6 * cs.length) - 1 - sixbitUnsigned cs := by
        have := bitsVal_map_not (true :: t)
        rw [hval] at this
        rw [this, hlen]
      rw [hflip, sixbitRef, if_pos hhead]
      have hU1 : sixbitUnsigned cs ≤ 2 ^ (6 * cs.length) - 1 := by omega
      have hA1 : (1 : ℕ) ≤ 2 ^ (6 * cs.length) := Nat.one_le_two_pow
      rw [Nat.cast_sub hU1, Nat.cast_sub hA1]
      push_cast
      ring_nf

/-- The carrier character of a six-bit value decodes back to it. -/
theorem sixbitVal_ofNat {v : ℕ} (h : v < 64) : sixbitVal (Char.ofNat (v + 64)) = v := by
  interval_cases v <;> decide

/-- Carrier characters have codes in 64..127. -/
theorem ofNat_toNat_encode {v : ℕ} (h : v < 64) :
    64 ≤ (Char.ofNat (v + 64)).toNat ∧ (Char.ofNat (v + 64)).toNat < 128 := by
  interval_cases v <;> decide

theorem encodeSixbitGroups_length : ∀ l u, (encodeSixbitGroups l u).length = l := by
  intro l
  induction l with
  | zero => intro u; rfl
  | succ j ih =>
    intro u
    simp only [encodeSixbitGroups, List.length_append, ih, List.length_cons, List.length_nil]

theorem encodeSixbitGroups_lt64 : ∀ l u, ∀ v ∈ encodeSixbitGroups l u, v < 64 := by
  intro l
  induction l with
  | zero => intro u v hv; simp [encodeSixbitGroups] at hv
  | succ j ih =>
    intro u v hv
    simp only [encodeSixbitGroups, List.mem_append, List.mem_singleton] at hv
    rcases hv with h | h
    · exact ih _ v h
    · rw [h]; exact Nat.mod_lt _ (by omega)

/-- Unsigned value recovered from an encoded group. -/
theorem sixbitUnsigned_encodeGroups : ∀ l u,
    sixbitUnsigned ((encodeSixbitGroups l u).map fun v => Char.ofNat (v + 64)) = u % 64 ^ l := by
  intro l
  induction l with
  | zero =>
    intro u
    simp [encodeSixbitGroups, sixbitUnsigned, Nat.mod_one]
  | succ j ih =>
    intro u
    simp only [encodeSixbitGroups, List.map_append, List.map_cons, List.map_nil]
    rw [sixbitUnsigned_append_singleton, ih (u / 64),
      sixbitVal_ofNat (Nat.mod_lt _ (by omega))]
    have hmm : u % (64 * 64 ^ j) = u % 64 + 64 * (u / 64 % 64 ^ j) := Nat.mod_mul
    rw [show (64 : ℕ) ^ (j + 1) = 64 * 64 ^ j from by ring]
    omega

/-- The decoder recovers every representable integer from its spec-side
encoding, at both wire widths. -/
theorem sixbit_roundtrip {L : ℕ} (hL : L = 2 ∨ L = 3) {x : ℤ}
    (hlo : -(2 ^ (6 * L - 1)) ≤ x) (hhi : x < 2 ^ (6 * L - 1)) :
    sixbit_to_decimal (encodeSixbit x L) = .num x := by
  have hcodes : ∀ c ∈ encodeSixbit x L, 64 ≤ c.toNat ∧ c.toNat < 128 := by
    intro c hc
    simp only [encodeSixbit, List.mem_map] at hc
    obtain ⟨v, hv, rfl⟩ := hc
    exact ofNat_toNat_encode (encodeSixbitGroups_lt64 _ _ v hv)
  have hlen : (encodeSixbit x L).length = L := by
    simp [encodeSixbit, encodeSixbitGroups_length]
  have hne : encodeSixbit x L ≠ [] := by
    intro hcon
    rw [hcon] at hlen
    simp at hlen
    omega
  have hnsl : encodeSixbit x L ≠ ['/', '/', '/'] := by
    intro hcon
    have : '/' ∈ encodeSixbit x L := by rw [hcon]; simp
    have := (hcodes '/' this).1
    simp at this
  rw [sixbit_twoscomp hne hnsl (fun c hc => (hcodes c hc).2)]
  congr 1
  have hU : sixbitUnsigned (encodeSixbit x L) = (x.emod (2 ^ (6 * L))).toNat := by
    rw [encodeSixbit, sixbitUnsigned_encodeGroups]
    have hb : (0 : ℤ) < 2 ^ (6 * L) := by positivity
    have hlt : x % 2 ^ (6 * L) < 2 ^ (6 * L) := Int.emod_lt_of_pos x (by positivity)
    have hge : (0 : ℤ) ≤ x % 2 ^ (6 * L) := Int.emod_nonneg x (by positivity)
    have h64 : (64 : ℕ) ^ L = 2 ^ (6 * L) := by
      rw [show (64 : ℕ) = 2 ^ 6 from rfl, ← pow_mul]
    have hAB : (((2 : ℕ) ^ (6 * L) : ℕ) : ℤ) = (2 : ℤ) ^ (6 * L) := by push_cast; ring
    apply Nat.mod_eq_of_lt
    rw [h64]
    have he : Int.emod x (2 ^ (6 * L)) = x % 2 ^ (6 * L) := rfl
    rw [he]
    omega
  rw [sixbitRef, hU, hlen]
  have he : Int.emod x (2 ^ (6 * L)) = x % 2 ^ (6 * L) := rfl
  rw [he]
  rcases hL with rfl | rfl
  · norm_num at hlo hhi ⊢
    split <;> omega
  · norm_num at hlo hhi ⊢
    split <;> omega

/-! ### Claim C1: six-bit codec two's-complement reading and round trip -/

/-- C1.  For every input group that is not the missing-data sentinel (and
whose characters carry six-bit values, i.e. codes below 128),
`sixbit_to_decimal` returns the two's-complement integer denoted by the
MSB-first concatenation of the per-character 6-bit values
(`ord(c) - 64` above ASCII 63, `ord(c)` otherwise); consequently decoding
the encoding of `x` yields `x` back for every `x` representable in `6*L`
bits, `L = 2` or `3` (round-trip law). -/
theorem claim_C1_sixbit_codec :
    (∀ cs : List Char, cs ≠ [] → cs ≠ ['/', '/', '/'] → (∀ c ∈ cs, c.toNat < 128) →
      sixbit_to_decimal cs = .num (sixbitRef cs)) ∧
    (∀ L : ℕ, L = 2 ∨ L = 3 → ∀ x : ℤ, -(2 ^ (6 * L - 1)) ≤ x → x < 2 ^ (6 * L - 1) →
      sixbit_to_decimal (encodeSixbit x L) = .num x) :=
  ⟨fun _ h1 h2 h3 => sixbit_twoscomp h1 h2 h3,
   fun _ hL _ hlo hhi => sixbit_roundtrip hL hlo hhi⟩

/-- Witness for C1 at the concrete inputs `"AB"` and `x = -5`, `L = 3`. -/
theorem claim_C1_sixbit_codec_witness :
    sixbit_to_decimal ['A', 'B'] = .num (sixbitRef ['A', 'B']) ∧
    sixbit_to_decimal (encodeSixbit (-5) 3) = .num (-5) :=
  ⟨claim_C1_sixbit_codec.1 ['A', 'B'] (by decide) (by decide) (by decide),
   claim_C1_sixbit_codec.2 3 (Or.inr rfl) (-5) (by decide) (by decide)⟩

/-! ### Claim C10: `minutes_to_time` rendering -/

/-- C10.  `minutes_to_time` renders an optional minus sign, the zero-padded
hours `|m| / 60`, the minutes `|m| % 60`, and a seconds field that is
always `00`; in particular `minutes_to_time(-5) = "-00:05:00"` and
`minutes_to_time(1500) = "25:00:00"`. -/
theorem claim_C10_minutes_to_time :
    (∀ m : ℤ, minutes_to_time m =
      (if m < 0 then ['-'] else []) ++ fmt02 (m.natAbs / 60) ++
        ':' :: fmt02 (m.natAbs % 60) ++ ':' :: ['0', '0']) ∧
    minutes_to_time (-5) = ['-', '0', '0', ':', '0', '5', ':', '0', '0'] ∧
    minutes_to_time 1500 = ['2', '5', ':', '0', '0', ':', '0', '0'] := by
  refine ⟨fun m => ?_, by decide, by decide⟩
  show ((if m < 0 then ['-'] else []) ++ fmt02 (m.natAbs / 60) ++
      ':' :: fmt02 (m.natAbs % 60) ++ ':' :: fmt02 (m.natAbs % 60 * 60 % 60)) = _
  rw [Nat.mul_mod_left, show fmt02 0 = ['0', '0'] from by decide]

/-! ### Claim C5: missing-data sentinel widths -/

theorem sixbitUnsigned_lt : ∀ cs : List Char, (∀ c ∈ cs, sixbitVal c < 64) →
    sixbitUnsigned cs < 64 ^ cs.length := by
  intro cs
  induction cs with
  | nil => intro _; simp [sixbitUnsigned]
  | cons c t ih =>
    intro h
    rw [sixbitUnsigned_cons]
    have h1 := ih (fun x hx => h x (by simp [hx]))
    have h2 : sixbitVal c < 64 := h c (by simp)
    have h3 : (64 : ℕ) ^ (c :: t).length = 64 * 64 ^ t.length := by
      simp [List.length_cons, pow_succ]
      ring
    rw [h3]
    have : sixbitVal c * 64 ^ t.length ≤ 63 * 64 ^ t.length :=
      Nat.mul_le_mul_right _ (by omega)
    nlinarith

/-- Counterexample to C5: the two-character all-slash group `"//"` does
not decode to the missing sentinel; it decodes to the number `-1041`. -/
theorem claim_C5_counterexample :
    sixbit_to_decimal (List.replicate 2 '/') = .num (-1041) := by decide

/-- C5 (amended).  Only the exact three-character string `"///"` is the
missing-data sentinel.  An all-slash run of any other positive width
decodes to a (negative) numeric value instead of the missing result. -/
theorem claim_C5_amended :
    sixbit_to_decimal ['/', '/', '/'] = .nan ∧
    (∀ n : ℕ, 1 ≤ n → n ≠ 3 →
      ∃ z : ℤ, z < 0 ∧ sixbit_to_decimal (List.replicate n '/') = .num z) := by
  refine ⟨by decide, fun n h1 h3 => ?_⟩
  obtain ⟨k, rfl⟩ : ∃ k, n = k + 1 := ⟨n - 1, by omega⟩
  have hnil : List.replicate (k + 1) '/' ≠ [] := by
    intro hc
    have := congrArg List.length hc
    simp at this
  have hne : List.replicate (k + 1) '/' ≠ ['/', '/', '/'] := by
    intro hc
    have := congrArg List.length hc
    simp at this
    omega
  have hall : ∀ c ∈ List.replicate (k + 1) '/', sixbitVal c < 64 := by
    intro c hc
    rw [List.eq_of_mem_replicate hc]
    decide
  have hallcode : ∀ c ∈ List.replicate (k + 1) '/', c.toNat < 128 := by
    intro c hc
    rw [List.eq_of_mem_replicate hc]
    decide
  have hU : sixbitUnsigned (List.replicate (k + 1) '/') =
      47 * 64 ^ k + sixbitUnsigned (List.replicate k '/') := by
    rw [List.replicate_succ, sixbitUnsigned_cons]
    simp [show sixbitVal '/' = 47 from by decide]
  have hUlt : sixbitUnsigned (List.replicate (k + 1) '/') < 64 ^ (k + 1) := by
    have := sixbitUnsigned_lt _ hall
    simpa using this
  have hlen : (List.replicate (k + 1) '/').length = k + 1 := by simp
  have hpow1 : (2 : ℕ) ^ (6 * (k + 1) - 1) = 32 * 64 ^ k := by
    rw [show 6 * (k + 1) - 1 = 5 + 6 * k from by omega, pow_add, pow_mul]
    norm_num
  refine ⟨sixbitRef (List.replicate (k + 1) '/'), ?_, ?_⟩
  · rw [sixbitRef, hlen, if_pos]
    · have hc : ((64 : ℕ) ^ (k + 1) : ℤ) = 2 ^ (6 * (k + 1)) := by
        push_cast
        rw [show (64 : ℤ) = 2 ^ 6 from by norm_num, ← pow_mul]
      omega
    · rw [hU, hpow1]
      omega
  · exact sixbit_twoscomp hnil hne hallcode
/-- Witness for the amended C5 at width 2. -/
theorem claim_C5_amended_witness :
    (1 : ℕ) ≤ 2 ∧ (2 : ℕ) ≠ 3 ∧
      ∃ z : ℤ, z < 0 ∧ sixbit_to_decimal (List.replicate 2 '/') = .num z :=
  ⟨by decide, by decide, claim_C5_amended.2 2 (by decide) (by decide)⟩

/-! ### Lemmas: `replaceAll` is year-token substitution on date strings -/

theorem listStarts_length_le : ∀ {pat l : List Char}, listStarts pat l = true →
    pat.length ≤ l.length := by
  intro pat
  induction pat with
  | nil => intro l _; simp
  | cons p ps ih =>
    intro l h
    cases l with
    | nil => simp [listStarts] at h
    | cons c cs =>
      simp only [listStarts, Bool.and_eq_true] at h
      have := ih h.2
      simp only [List.length_cons]
      omega

theorem listStarts_self : ∀ l : List Char, listStarts l l = true := by
  intro l
  induction l with
  | nil => rfl
  | cons c cs ih => simp [listStarts, ih]

theorem listStarts_eq_of_len : ∀ {pat l : List Char}, pat.length = l.length →
    (listStarts pat l = true ↔ pat = l) := by
  intro pat
  induction pat with
  | nil =>
    intro l h
    cases l with
    | nil => simp [listStarts]
    | cons c cs => simp at h
  | cons p ps ih =>
    intro l h
    cases l with
    | nil => simp at h
    | cons c cs =>
      simp only [List.length_cons] at h
      have h' : ps.length = cs.length := by omega
      simp only [listStarts, Bool.and_eq_true, beq_iff_eq, List.cons.injEq, ih h']

theorem replaceAllAux_nil (fuel : ℕ) (pat rep : List Char) :
    replaceAllAux fuel [] pat rep = [] := by
  cases fuel <;> rfl

theorem replaceAllAux_step_neg {pat : List Char} {c : Char} {rest : List Char}
    (h : listStarts pat (c :: rest) = false) (fuel : ℕ) (rep : List Char) :
    replaceAllAux (fuel + 1) (c :: rest) pat rep = c :: replaceAllAux fuel rest pat rep := by
  simp [replaceAllAux, h]

theorem replaceAllAux_short : ∀ (fuel : ℕ) {l pat : List Char} (rep : List Char),
    l.length < pat.length → replaceAllAux fuel l pat rep = l := by
  intro fuel
  induction fuel with
  | zero => intro l pat rep _; rfl
  | succ f ih =>
    intro l pat rep h
    cases l with
    | nil => exact replaceAllAux_nil _ _ _
    | cons c rest =>
      have hs : listStarts pat (c :: rest) = false := by
        cases hb : listStarts pat (c :: rest) with
        | false => rfl
        | true =>
          have := listStarts_length_le hb
          omega
      rw [replaceAllAux_step_neg hs, ih rep (by simp at h ⊢; omega)]

theorem replaceAllAux_exact {pat l : List Char} (h : pat = l) (hne : pat ≠ [])
    {fuel : ℕ} (hf : 0 < fuel) (rep : List Char) :
    replaceAllAux fuel l pat rep = rep := by
  subst h
  cases fuel with
  | zero => omega
  | succ f =>
    cases hl : pat with
    | nil => exact absurd hl hne
    | cons c rest =>
      show replaceAllAux (f + 1) (c :: rest) (c :: rest) rep = rep
      have hs : listStarts (c :: rest) (c :: rest) = true := listStarts_self _
      simp only [replaceAllAux, hs, if_true]
      rw [show (c :: rest).drop (c :: rest).length = [] from List.drop_length _,
        replaceAllAux_nil]
      simp

theorem replaceAllAux_same_len_ne {pat l : List Char} (hlen : pat.length = l.length)
    (hne : pat ≠ l) {fuel : ℕ} (hf : l.length < fuel) (rep : List Char) :
    replaceAllAux fuel l pat rep = l := by
  cases l with
  | nil =>
    exact replaceAllAux_nil _ _ _
  | cons c rest =>
    cases fuel with
    | zero => simp at hf
    | succ f =>
      have hs : listStarts pat (c :: rest) = false := by
        cases hb : listStarts pat (c :: rest) with
        | false => rfl
        | true => exact absurd ((listStarts_eq_of_len hlen).mp hb) hne
      rw [replaceAllAux_step_neg hs, replaceAllAux_short f rep (by simp at hlen ⊢; omega)]

theorem replaceAllAux_skip : ∀ (pref : List Char) {suf pat : List Char} (rep : List Char),
    (∀ n, n < pref.length → listStarts pat (pref.drop n ++ suf) = false) →
    ∀ fuel, pref.length + suf.length < fuel →
    replaceAllAux fuel (pref ++ suf) pat rep =
      pref ++ replaceAllAux (fuel - pref.length) suf pat rep := by
  intro pref
  induction pref with
  | nil =>
    intro suf pat rep _ fuel _
    simp
  | cons c pr ih =>
    intro suf pat rep h fuel hf
    cases fuel with
    | zero => simp at hf
    | succ f =>
      have h0 : listStarts pat (c :: (pr ++ suf)) = false := by
        have := h 0 (by simp)
        simpa using this
      have harith : f + 1 - (c :: pr).length = f - pr.length := by
        simp only [List.length_cons]
        omega
      rw [List.cons_append, replaceAllAux_step_neg h0,
        ih rep (fun n hn => by have := h (n + 1) (by simp; omega); simpa using this) f
          (by simp only [List.length_cons] at hf; omega), harith]
      rw [List.cons_append]

theorem natDigits_inj {a b : ℕ} (h : natDigits a = natDigits b) : a = b := by
  have ha := charsVal_natDigits a
  rw [h, charsVal_natDigits] at ha
  omega

/-- On a rendered `MM/DD/YYYY` date string, replacing a four-digit
pattern touches only the year field: the month/day prefix cannot contain
it (every four-character window there spans a `/`), so the result is the
same date with the year substring swapped exactly when it equals the
pattern. -/
theorem replaceAll_date {m d : ℕ} {ys pat : List Char} (rep : List Char)
    (hm : m ≤ 99) (hd : d ≤ 99)
    (hylen : ys.length = 4) (hplen : pat.length = 4)
    (hpdig : ∀ c ∈ pat, isDig c = true) :
    replaceAll (fmt02 m ++ '/' :: fmt02 d ++ '/' :: ys) pat rep =
      fmt02 m ++ '/' :: fmt02 d ++ '/' :: (if ys = pat then rep else ys) := by
  have hpatne : pat ≠ [] := by
    intro hc
    rw [hc] at hplen
    simp at hplen
  obtain ⟨p0, p1, p2, p3, rfl⟩ : ∃ p0 p1 p2 p3, pat = [p0, p1, p2, p3] := by
    rcases pat with _ | ⟨p0, _ | ⟨p1, _ | ⟨p2, _ | ⟨p3, _ | ⟨p4, t⟩⟩⟩⟩⟩ <;>
      first
        | (exact ⟨p0, p1, p2, p3, rfl⟩)
        | (exfalso; simp [List.length_cons] at hplen)
  have hp0 : isDig p0 = true := hpdig p0 (by simp)
  have hp1 : isDig p1 = true := hpdig p1 (by simp)
  have hp2 : isDig p2 = true := hpdig p2 (by simp)
  have hb0 : (p0 == '/') = false := beq_eq_false_iff_ne.mpr
    (isDig_ne_of_toNat hp0 (Or.inl (by decide)))
  have hb1 : (p1 == '/') = false := beq_eq_false_iff_ne.mpr
    (isDig_ne_of_toNat hp1 (Or.inl (by decide)))
  have hb2 : (p2 == '/') = false := beq_eq_false_iff_ne.mpr
    (isDig_ne_of_toNat hp2 (Or.inl (by decide)))
  obtain ⟨a1, a2, ham⟩ : ∃ a1 a2, fmt02 m = [a1, a2] :=
    ⟨_, _, fmt02_eq_pair hm⟩
  obtain ⟨b1, b2, hbm⟩ : ∃ b1 b2, fmt02 d = [b1, b2] :=
    ⟨_, _, fmt02_eq_pair hd⟩
  rw [ham, hbm, replaceAll, if_neg hpatne]
  have hno : ∀ n, n < ([a1, a2, '/', b1, b2, '/'] : List Char).length →
      listStarts [p0, p1, p2, p3] (([a1, a2, '/', b1, b2, '/'] : List Char).drop n ++ ys) = false := by
    intro n hn
    simp only [List.length_cons, List.length_nil] at hn
    interval_cases n <;>
      simp [listStarts, hb0, hb1, hb2]
  have hflen : (([a1, a2, '/', b1, b2, '/'] : List Char) ++ ys).length + 1 = 11 := by
    simp [hylen]
  have hskip := replaceAllAux_skip ([a1, a2, '/', b1, b2, '/'] : List Char) rep hno 11
    (by simp [hylen])
  have hleft : ([a1, a2] : List Char) ++ '/' :: ([b1, b2] : List Char) ++ '/' :: ys =
      ([a1, a2, '/', b1, b2, '/'] : List Char) ++ ys := by
    simp
  rw [hleft, hflen, hskip]
  have htail : replaceAllAux (11 - ([a1, a2, '/', b1, b2, '/'] : List Char).length)
      ys [p0, p1, p2, p3] rep = (if ys = [p0, p1, p2, p3] then rep else ys) := by
    simp only [List.length_cons, List.length_nil]
    split
    case isTrue h => exact replaceAllAux_exact h.symm hpatne (by omega) rep
    case isFalse h =>
      exact replaceAllAux_same_len_ne (by rw [hplen, hylen]) (fun hc => h hc.symm)
        (by omega) rep
  rw [htail]
  simp

/-! ### Lemmas: inverting one block-loop iteration -/

/-- Everything a successful `processBlock` run determines: the decoded
header fields, the sensor, the measurements, the emitted records and the
remaining payload. -/
theorem processBlock_inv {data : List Char} {year now : ℤ}
    {recs : List RawEntry} {rest : List Char}
    (hp : processBlock data year now = some (recs, rest)) :
    ∃ c1 day dateS dd sensor ts0 iv ms,
      data[1]? = some c1 ∧
      sixbit_to_decimal (pySlice data 2 4) = .num day ∧
      julian_to_date day year = some dateS ∧
      parseDate dateS = some dd ∧
      pyGet sensors ((c1.toNat : ℤ) - 65) = some sensor ∧
      sixbit_to_decimal (pySlice data 4 6) = .num ts0 ∧
      sixbit_to_decimal (pySlice data 6 8) = .num iv ∧
      decodeMeasurements sensor (chunk3 (pySlice data 8 (nextBlockStart data))) = some ms ∧
      recs = (if containsSeq samplesChars sensor then ([] : List RawEntry)
        else ms.enum.map fun p =>
          { sensor := sensor
            date := if 86400 * daysFromCivil dd.y dd.m dd.d > now ∧ 365 ≤ day
                then replaceAll dateS (intStr year) (intStr (year - 1)) else dateS
            time := minutes_to_time ((ts0 - 1) - (p.1 : ℤ) * iv)
            measurement := p.2 }) ∧
      rest = data.drop (nextBlockStart data) := by
  unfold processBlock at hp
  cases hc1 : data[1]? with
  | none => rw [hc1] at hp; simp at hp
  | some c1 =>
  rw [hc1] at hp
  dsimp only at hp
  cases hday : sixbit_to_decimal (pySlice data 2 4) with
  | err => rw [hday] at hp; simp at hp
  | nan => rw [hday] at hp; simp at hp
  | num day =>
  rw [hday] at hp
  dsimp only at hp
  cases hj : julian_to_date day year with
  | none => rw [hj] at hp; simp at hp
  | some dateS =>
  rw [hj] at hp
  dsimp only at hp
  cases hpd : parseDate dateS with
  | none => rw [hpd] at hp; simp at hp
  | some dd =>
  rw [hpd] at hp
  dsimp only at hp
  cases hg : pyGet sensors ((c1.toNat : ℤ) - 65) with
  | none => rw [hg] at hp; simp at hp
  | some sensor =>
  rw [hg] at hp
  dsimp only at hp
  cases hts : sixbit_to_decimal (pySlice data 4 6) with
  | err => rw [hts] at hp; simp at hp
  | nan => rw [hts] at hp; simp at hp
  | num ts0 =>
  rw [hts] at hp
  dsimp only at hp
  cases hiv : sixbit_to_decimal (pySlice data 6 8) with
  | err => rw [hiv] at hp; simp at hp
  | nan => rw [hiv] at hp; simp at hp
  | num iv =>
  rw [hiv] at hp
  dsimp only at hp
  cases hms : decodeMeasurements sensor (chunk3 (pySlice data 8 (nextBlockStart data))) with
  | none => rw [hms] at hp; simp at hp
  | some ms =>
  rw [hms] at hp
  dsimp only at hp
  simp only [Option.some.injEq, Prod.mk.injEq] at hp
  exact ⟨c1, day, dateS, dd, sensor, ts0, iv, ms, rfl, rfl, hj, hpd, hg, rfl, rfl, hms,
    hp.1.symm, hp.2.symm⟩

/-! ### Claim C9: start-time correction and backward sample times -/

/-- C9.  In every successfully processed block, exactly 1 is subtracted
from the decoded start time `s`, and the `i`-th emitted sample of the
block's measurement run carries time
`minutes_to_time((s - 1) - i * v)` for the decoded interval `v`: times
run backward from the corrected start in steps of the interval. -/
theorem claim_C9_backward_times :
    ∀ (data : List Char) (year now : ℤ) (recs : List RawEntry) (rest : List Char) (s v : ℤ),
      processBlock data year now = some (recs, rest) →
      sixbit_to_decimal (pySlice data 4 6) = .num s →
      sixbit_to_decimal (pySlice data 6 8) = .num v →
      recs.map (fun r => r.time) =
        (List.range recs.length).map (fun i : ℕ => minutes_to_time ((s - 1) - (i : ℤ) * v)) := by
  intro data year now recs rest s v hp hs hv
  obtain ⟨c1, day, dateS, dd, sensor, ts0, iv, ms, hc1, hday, hj, hpd, hg, hts, hiv, hms,
    hrecs, hrest⟩ := processBlock_inv hp
  have hts0 : ts0 = s := by
    have := hts.symm.trans hs
    simpa using this
  have hiv0 : iv = v := by
    have := hiv.symm.trans hv
    simpa using this
  subst hts0
  subst hiv0
  rw [hrecs]
  split
  · simp
  · rw [List.map_map, List.length_map, List.enum_length]
    calc List.map
          ((fun r : RawEntry => r.time) ∘ fun p : ℕ × Option (ℤ × ℕ) =>
            ({ sensor := sensor
               date := if 86400 * daysFromCivil dd.y dd.m dd.d > now ∧ 365 ≤ day
                   then replaceAll dateS (intStr year) (intStr (year - 1)) else dateS
               time := minutes_to_time ((ts0 - 1) - (p.1 : ℤ) * iv)
               measurement := p.2 } : RawEntry)) ms.enum
        = List.map ((fun i : ℕ => minutes_to_time ((ts0 - 1) - (i : ℤ) * iv)) ∘ Prod.fst)
            ms.enum := rfl
      _ = List.map (fun i : ℕ => minutes_to_time ((ts0 - 1) - (i : ℤ) * iv))
            (ms.enum.map Prod.fst) := by rw [List.map_map]
      _ = List.map (fun i : ℕ => minutes_to_time ((ts0 - 1) - (i : ℤ) * iv))
            (List.range ms.length) := by rw [List.enum_map_fst]

/-- Witness for C9: the single-block message `"+AABAAAAAAAAAAA"` with
decoded start time 65 and interval 65 yields three samples with times
64, -1, and -66 minutes. -/
theorem claim_C9_backward_times_witness :
    ([{ sensor := ['P','R','S'], date := ['0','3','/','0','6','/','2','0','2','4'], time := ['0','1',':','0','4',':','0','0'], measurement := some ((4161 : ℤ), 1000) },
      { sensor := ['P','R','S'], date := ['0','3','/','0','6','/','2','0','2','4'], time := ['-','0','0',':','0','1',':','0','0'], measurement := some ((4161 : ℤ), 1000) },
      { sensor := ['P','R','S'], date := ['0','3','/','0','6','/','2','0','2','4'], time := ['-','0','1',':','0','6',':','0','0'], measurement := some ((1 : ℤ), 1000) }] :
      List RawEntry).map (fun r => r.time) =
      (List.range ([{ sensor := ['P','R','S'], date := ['0','3','/','0','6','/','2','0','2','4'], time := ['0','1',':','0','4',':','0','0'], measurement := some ((4161 : ℤ), 1000) },
        { sensor := ['P','R','S'], date := ['0','3','/','0','6','/','2','0','2','4'], time := ['-','0','0',':','0','1',':','0','0'], measurement := some ((4161 : ℤ), 1000) },
        { sensor := ['P','R','S'], date := ['0','3','/','0','6','/','2','0','2','4'], time := ['-','0','1',':','0','6',':','0','0'], measurement := some ((1 : ℤ), 1000) }] :
        List RawEntry).length).map (fun i : ℕ => minutes_to_time ((65 - 1) - (i : ℤ) * 65)) :=
  claim_C9_backward_times
    ['+','A','A','B','A','A','A','A','A','A','A','A','A','A','A'] 2024 0 _ [] 65 65
    (by decide) (by decide) (by decide)

/-! ### Claim C4: measurement runs whose length is not a multiple of 3 -/

theorem chunk3_length_aux : ∀ (n : ℕ) (s : List Char), s.length ≤ n →
    (chunk3 s).length = (s.length + 2) / 3 := by
  intro n
  induction n with
  | zero =>
    intro s h
    have hs : s = [] := List.length_eq_zero.mp (by omega)
    subst hs
    simp [chunk3]
  | succ k ih =>
    intro s h
    match s with
    | [] => simp [chunk3]
    | [a] => simp [chunk3]
    | [a, b] => simp [chunk3]
    | a :: b :: c :: rest =>
      simp only [chunk3, List.length_cons]
      simp only [List.length_cons] at h
      rw [ih rest (by omega)]
      omega

theorem chunk3_length (s : List Char) : (chunk3 s).length = (s.length + 2) / 3 :=
  chunk3_length_aux s.length s le_rfl

theorem decodeMeasurements_length {sensor : List Char} :
    ∀ {gs : List (List Char)} {ms : List (Option (ℤ × ℕ))},
      decodeMeasurements sensor gs = some ms → ms.length = gs.length := by
  intro gs
  induction gs with
  | nil =>
    intro ms h
    simp only [decodeMeasurements, Option.some.injEq] at h
    rw [← h]
    rfl
  | cons g t ih =>
    intro ms h
    simp only [decodeMeasurements] at h
    cases hg : sixbit_to_decimal g with
    | err => rw [hg] at h; simp at h
    | nan =>
      rw [hg] at h
      cases ht : decodeMeasurements sensor t with
      | none => rw [ht] at h; simp at h
      | some ms' =>
        rw [ht] at h
        simp only [Option.map_some', Option.some.injEq] at h
        rw [← h]
        simp [ih ht]
    | num z =>
      rw [hg] at h
      cases ht : decodeMeasurements sensor t with
      | none => rw [ht] at h; simp at h
      | some ms' =>
        rw [ht] at h
        simp only [Option.map_some', Option.some.injEq] at h
        rw [← h]
        simp [ih ht]

/-- Counterexample to C4: a block whose measurement run has 7 characters
(7 % 3 = 1, a trailing partial group) yields 3 samples, not 2 — the
partial group is decoded and emitted, not ignored. -/
theorem claim_C4_counterexample :
    (pySlice (preprocess ['0','C','1','+','A','A','B','A','A','A','A','A','A','A','A','A','A','A'])
        8 (nextBlockStart (preprocess ['0','C','1','+','A','A','B','A','A','A','A','A','A','A','A','A','A','A']))).length = 7 ∧
    (7 : ℕ) % 3 ≠ 0 ∧
    (decode_pseudobinary_c_tx ['0','C','1','+','A','A','B','A','A','A','A','A','A','A','A','A','A','A']
        2024 0).map List.length = some 3 := by
  refine ⟨by decide, by decide, by decide⟩

/-- C4 (amended).  A trailing partial measurement group is NOT ignored:
every successfully processed block emits one sample per 3-character group
including a final short group, i.e. `⌈len/3⌉` samples for a run of `len`
characters (unless the sensor is a sample-count channel, which emits
none); in particular an empty run yields zero samples without error. -/
theorem claim_C4_amended :
    ∀ (data : List Char) (year now : ℤ) (recs : List RawEntry) (rest : List Char)
      (c1 : Char) (sensor : List Char),
      processBlock data year now = some (recs, rest) →
      data[1]? = some c1 →
      pyGet sensors ((c1.toNat : ℤ) - 65) = some sensor →
      recs.length = if containsSeq samplesChars sensor then 0
        else ((pySlice data 8 (nextBlockStart data)).length + 2) / 3 := by
  intro data year now recs rest c1 sensor hp hc1 hg
  obtain ⟨c1', day, dateS, dd, sensor', ts0, iv, ms, hc1', hday, hj, hpd, hg', hts, hiv, hms,
    hrecs, hrest⟩ := processBlock_inv hp
  have hcc : c1' = c1 := by
    have := hc1'.symm.trans hc1
    simpa using this
  subst hcc
  have hss : sensor' = sensor := by
    have := hg'.symm.trans hg
    simpa using this
  subst hss
  rw [hrecs]
  split
  · simp_all
  · rw [List.length_map, List.enum_length, decodeMeasurements_length hms, chunk3_length]

/-- Witness for the amended C4 on the 7-character-run block. -/
theorem claim_C4_amended_witness :
    ([{ sensor := ['P','R','S'], date := ['0','3','/','0','6','/','2','0','2','4'], time := ['0','1',':','0','4',':','0','0'], measurement := some ((4161 : ℤ), 1000) },
      { sensor := ['P','R','S'], date := ['0','3','/','0','6','/','2','0','2','4'], time := ['-','0','0',':','0','1',':','0','0'], measurement := some ((4161 : ℤ), 1000) },
      { sensor := ['P','R','S'], date := ['0','3','/','0','6','/','2','0','2','4'], time := ['-','0','1',':','0','6',':','0','0'], measurement := some ((1 : ℤ), 1000) }] :
      List RawEntry).length =
      if containsSeq samplesChars ['P','R','S'] then 0
      else ((pySlice ['+','A','A','B','A','A','A','A','A','A','A','A','A','A','A'] 8
        (nextBlockStart ['+','A','A','B','A','A','A','A','A','A','A','A','A','A','A'])).length + 2) / 3 :=
  claim_C4_amended ['+','A','A','B','A','A','A','A','A','A','A','A','A','A','A'] 2024 0 _ []
    'A' ['P','R','S'] (by decide) (by decide) (by decide)

/-! ### Claim C2: out-of-range sensor indices -/

/-- Python raises `IndexError` on the 32-entry sensor table only for
indices above 31 or below -32. -/
theorem pyGet_sensors_none {i : ℤ} (h : i < -32 ∨ 31 < i) : pyGet sensors i = none := by
  have hlen : sensors.length = 32 := by decide
  unfold pyGet
  rcases h with h | h
  · rw [if_neg (by omega), if_neg (by rw [hlen]; push_cast; omega)]
  · rw [if_pos (by omega)]
    apply List.getElem?_eq_none
    rw [hlen]
    omega

/-- With a sensor index outside -32..31 the block iteration always raises:
whichever of the earlier header decodes succeeds, the sensor-table lookup
fails. -/
theorem processBlock_none_of_badIndex {data : List Char} {year now : ℤ} {c1 : Char}
    (h1 : data[1]? = some c1)
    (hbad : (c1.toNat : ℤ) - 65 < -32 ∨ 31 < (c1.toNat : ℤ) - 65) :
    processBlock data year now = none := by
  unfold processBlock
  rw [h1]
  dsimp only
  cases hday : sixbit_to_decimal (pySlice data 2 4) with
  | err => rfl
  | nan => rfl
  | num day =>
    dsimp only
    cases hj : julian_to_date day year with
    | none => rfl
    | some dateS =>
      dsimp only
      cases hpd : parseDate dateS with
      | none => rfl
      | some dd =>
        dsimp only
        rw [pyGet_sensors_none hbad]

/-- Counterexample to C2: the sensor index of `'!'` is `-32`, outside the
0..31 table range, yet the whole message decodes successfully and reports
a record — Python's negative indexing silently selects `sensors[-32]`,
i.e. `'PRS'`. -/
theorem claim_C2_counterexample :
    (('!'.toNat : ℤ) - 65 = -32) ∧
    decode_pseudobinary_c_tx ['0','C','1','+','!','A','B','A','A','A','A','A','A','A'] 2024 0 =
      some [{ sensor := ['P','R','S'], date := ['0','3','/','0','6','/','2','0','2','4'],
              time := ['0','1',':','0','4',':','0','0'],
              measurement := some ((4161 : ℤ), 1000) }] := by
  refine ⟨by decide, by decide⟩

/-- Once the block loop reaches a payload whose second character gives a
sensor index outside -32..31, the whole remaining loop raises, for every
fuel value. -/
theorem decodeLoop_none_of_bad {year now : ℤ} {c1 : Char}
    (hbad : (c1.toNat : ℤ) - 65 < -32 ∨ 31 < (c1.toNat : ℤ) - 65) :
    ∀ {d e : List Char}, ReachesBlock year now d e →
      e[1]? = some c1 → e.head? ≠ some '.' →
      ∀ fuel, decodeLoop fuel d year now = none := by
  intro d e hr
  induction hr with
  | refl d =>
    intro hc1 hdot fuel
    cases fuel with
    | zero => rfl
    | succ n =>
      cases d with
      | nil => simp at hc1
      | cons a d' =>
        cases d' with
        | nil => simp at hc1
        | cons b t =>
          have ha : a ≠ '.' := fun hcon => hdot (by rw [hcon]; rfl)
          show (if a = '.' then some [] else
            match processBlock (a :: b :: t) year now with
            | none => none
            | some (recs, rest') =>
              match decodeLoop n rest' year now with
              | none => none
              | some more => some (recs ++ more)) = none
          rw [if_neg ha, processBlock_none_of_badIndex hc1 hbad]
  | step c d rest e recs hc hp _ ih =>
    intro hc1 hdot fuel
    cases fuel with
    | zero => rfl
    | succ n =>
      show (if c = '.' then some [] else
        match processBlock (c :: d) year now with
        | none => none
        | some (recs', rest') =>
          match decodeLoop n rest' year now with
          | none => none
          | some more => some (recs' ++ more)) = none
      rw [if_neg hc, hp]
      dsimp only
      rw [ih hc1 hdot n]

/-- C2 (amended).  The whole-message decode fails and reports no records
whenever any payload state the parser reaches carries a sensor index
outside -32..31 (the `IndexError` range of Python list indexing on the
32-entry table); for indices in -32..-1 Python's negative indexing
silently selects `sensors[index + 32]` instead of failing, so such
blocks decode, contrary to the claim. -/
theorem claim_C2_amended :
    ∀ (data : List Char) (year now : ℤ) (e : List Char) (c1 : Char),
      ReachesBlock year now (preprocess data) e →
      e[1]? = some c1 →
      ((c1.toNat : ℤ) - 65 < -32 ∨ 31 < (c1.toNat : ℤ) - 65) →
      e.head? ≠ some '.' →
      decode_pseudobinary_c_tx data year now = none := by
  intro data year now e c1 hr hc1 hbad hdot
  show decodeLoop ((preprocess data).length + 1) (preprocess data) year now = none
  exact decodeLoop_none_of_bad hbad hr hc1 hdot _

/-- Witness for the amended C2: a two-block message whose second,
parser-reached block has sensor character `'a'` (index 32); the decode
of the whole message fails. -/
theorem claim_C2_amended_witness :
    decode_pseudobinary_c_tx ['0','C','1','+','A','A','B','A','A','A','A','A','A','A','+','a','A','B','A','A','A','A','A','A','A'] 2024 0 =
      none :=
  claim_C2_amended ['0','C','1','+','A','A','B','A','A','A','A','A','A','A','+','a','A','B','A','A','A','A','A','A','A'] 2024 0
    ['+','a','A','B','A','A','A','A','A','A','A'] 'a'
    (ReachesBlock.step '+' ['A','A','B','A','A','A','A','A','A','A','+','a','A','B','A','A','A','A','A','A','A']
      ['+','a','A','B','A','A','A','A','A','A','A'] ['+','a','A','B','A','A','A','A','A','A','A']
      [{ sensor := ['P','R','S'], date := ['0','3','/','0','6','/','2','0','2','4'], time := ['0','1',':','0','4',':','0','0'], measurement := some ((4161 : ℤ), 1000) }]
      (by decide) (by decide) (ReachesBlock.refl ['+','a','A','B','A','A','A','A','A','A','A']))
    (by decide) (by decide) (by decide)

/-! ### Claim C8: year-ambiguity substitution -/

/-- C8.  When the date computed from the nominal year lies strictly after
the processing instant and the decoded Julian day is at least 365, every
record of the block carries that date with only its literal year
substring substituted by `year - 1` (month and day-of-month reused
unchanged; when the computed date rolled into a different calendar
year the four-digit nominal-year substring does not occur and the date is
unchanged); in all other cases the computed date is emitted unmodified. -/
theorem claim_C8_year_substitution :
    ∀ (data : List Char) (year now : ℤ) (recs : List RawEntry) (rest : List Char) (day : ℤ),
      processBlock data year now = some (recs, rest) →
      sixbit_to_decimal (pySlice data 2 4) = .num day →
      1000 ≤ year → year ≤ 9999 →
      ∀ D : CivilDate, D = civilFromDays (daysFromCivil year 1 1 + (day - 1)) →
      ValidDate D → 1000 ≤ D.y →
      ∀ r ∈ recs,
        r.date = if 86400 * daysFromCivil D.y D.m D.d > now ∧ 365 ≤ day
          then renderDate (if D.y = year then ⟨year - 1, D.m, D.d⟩ else D)
          else renderDate D := by
  intro data year now recs rest day hp hday hy1 hy2 D hD hDv hDy4 r hr
  obtain ⟨c1, day', dateS, dd, sensor, ts0, iv, ms, hc1, hday', hj, hpd, hg, hts, hiv, hms,
    hrecs, hrest⟩ := processBlock_inv hp
  have hdd : day = day' := by
    have := hday.symm.trans hday'
    simpa using this
  subst hdd
  rw [julian_to_date, if_neg (by omega)] at hj
  split at hj
  · simp at hj
  · simp only [Option.some.injEq] at hj
    rw [← hD] at hj
    have hparse : parseDate dateS = some D := by
      rw [← hj]
      exact parse_renderDate hDv hDy4
    have hddD : dd = D := by
      have := hpd.symm.trans hparse
      simpa using this
    subst hddD
    rw [hrecs] at hr
    split at hr
    · simp at hr
    · simp only [List.mem_map] at hr
      obtain ⟨p, hpmem, hrec⟩ := hr
      have hrdate : r.date =
          if 86400 * daysFromCivil dd.y dd.m dd.d > now ∧ 365 ≤ day
            then replaceAll dateS (intStr year) (intStr (year - 1)) else dateS := by
        rw [← hrec]
      rw [hrdate, ← hj]
      obtain ⟨hv1, hv2, hv3, hv4, hv5, hv6⟩ := hDv
      have hd31 : dd.d ≤ 31 := le_trans hv6 (daysInMonth_le31 _ _)
      by_cases hcond : 86400 * daysFromCivil dd.y dd.m dd.d > now ∧ 365 ≤ day
      · rw [if_pos hcond, if_pos hcond]
        have hpy : intStr year = natDigits year.toNat := by
          rw [intStr, if_neg (by omega)]
          rw [show year.natAbs = year.toNat from by omega]
          rfl
        have hpy1 : intStr (year - 1) = natDigits (year - 1).toNat := by
          rw [intStr, if_neg (by omega)]
          rw [show (year - 1).natAbs = (year - 1).toNat from by omega]
          rfl
        rw [hpy, hpy1, renderDate]
        rw [replaceAll_date (natDigits (year - 1).toNat) (by omega) (by omega)
          (natDigits_length4 (by omega) (by omega))
          (natDigits_length4 (by omega) (by omega))
          (natDigits_all_isDig year.toNat)]
        have hiff : (natDigits dd.y.toNat = natDigits year.toNat) ↔ dd.y = year := by
          constructor
          · intro h
            have := natDigits_inj h
            omega
          · intro h
            rw [h]
        by_cases hyy : dd.y = year
        · rw [if_pos (hiff.mpr hyy), if_pos hyy]
          rfl
        · rw [if_neg (fun hc => hyy (hiff.mp hc)), if_neg hyy]
          rfl
      · rw [if_neg hcond, if_neg hcond]

/-- Witness for C8: nominal year 2024, decoded Julian day 365
(date 12/30/2024), processing instant 0 (1970): the block's record
carries the date with the year substring replaced, `12/30/2023`. -/
theorem claim_C8_year_substitution_witness :
    ({ sensor := ['P','R','S'], date := ['1','2','/','3','0','/','2','0','2','3'], time := ['0','1',':','0','4',':','0','0'], measurement := some ((4161 : ℤ), 1000) } : RawEntry).date =
      if 86400 * daysFromCivil (2024 : ℤ) 12 30 > 0 ∧ (365 : ℤ) ≤ 365
        then renderDate (if (2024 : ℤ) = 2024 then ⟨2024 - 1, 12, 30⟩ else ⟨2024, 12, 30⟩)
        else renderDate ⟨2024, 12, 30⟩ :=
  claim_C8_year_substitution ['+','A','E','m','A','A','A','A','A','A','A'] 2024 0
    [{ sensor := ['P','R','S'], date := ['1','2','/','3','0','/','2','0','2','3'], time := ['0','1',':','0','4',':','0','0'], measurement := some ((4161 : ℤ), 1000) }] [] 365
    (by decide) (by decide) (by decide) (by decide) ⟨2024, 12, 30⟩ (by decide) (by decide)
    (by decide)
    { sensor := ['P','R','S'], date := ['1','2','/','3','0','/','2','0','2','3'], time := ['0','1',':','0','4',':','0','0'], measurement := some ((4161 : ℤ), 1000) }
    (by decide)

/-! ### Claim C6: missing measurements render as literal `nan` -/

/-- Counterexample to C6: a block whose only measurement group is the
`"///"` sentinel formats, without raising, into a record whose `data`
field is exactly the literal not-a-number text `nan`. -/
theorem claim_C6_counterexample :
    decodeAndFormat ['0','C','1','+','A','A','B','A','A','A','A','/','/','/'] 2024 0 =
      some [{ time := ['2','0','2','4','-','0','3','-','0','6',' ','0','1',':','0','4',':','0','0','+','0','0',':','0','0'],
              sensor := ['P','R','S'],
              data := ['n','a','n'] }] := by
  decide

/-- C6 (amended).  A sample whose measurement group decoded to the
missing sentinel is scaled and formatted without raising, and the
resulting record's `data` field is exactly the literal text `nan`
(Python's fixed-point formatting of a NaN float) — not a distinct
missing-value placeholder. -/
theorem claim_C6_amended :
    ∀ (e : RawEntry) (r : FormattedRecord),
      formatEntry e = some r → e.measurement = none → r.data = ['n', 'a', 'n'] := by
  intro e r h hnan
  unfold formatEntry at h
  split at h
  on_goal 2 => simp at h
  dsimp only at h
  split at h
  on_goal 1 => simp at h
  split at h
  on_goal 1 => simp at h
  split at h
  on_goal 1 => simp at h
  simp only [Option.some.injEq] at h
  rw [← h, hnan]
  rfl

/-- Witness for the amended C6 at the concrete record produced by the
counterexample's block. -/
theorem claim_C6_amended_witness :
    ({ time := ['2','0','2','4','-','0','3','-','0','6',' ','0','1',':','0','4',':','0','0','+','0','0',':','0','0'],
       sensor := ['P','R','S'],
       data := ['n','a','n'] } : FormattedRecord).data = ['n', 'a', 'n'] :=
  claim_C6_amended
    { sensor := ['P','R','S'], date := ['0','3','/','0','6','/','2','0','2','4'],
      time := ['0','1',':','0','4',':','0','0'], measurement := none }
    _ (by decide) (by decide)

/-! ### Lemmas: the hour-normalization branches of `formatEntry` -/

theorem addDaysStr_render {D : CivilDate} (hv : ValidDate D) (hya : 1000 ≤ D.y) (k : ℤ)
    (hbnd : ¬ (daysFromCivil D.y D.m D.d + k < minDayZ ∨
      maxDayZ < daysFromCivil D.y D.m D.d + k)) :
    addDaysStr (renderDate D) k =
      some (renderDate (civilFromDays (daysFromCivil D.y D.m D.d + k))) := by
  unfold addDaysStr
  rw [parse_renderDate hv hya]
  exact if_neg hbnd

theorem count_colon_one {a b : List Char} (ha : ':' ∉ a) (hb : ':' ∉ b) :
    List.count ':' (a ++ ':' :: b) = 1 := by
  rw [List.count_append, List.count_cons, List.count_eq_zero.mpr ha,
    List.count_eq_zero.mpr hb]
  simp

theorem count_colon_midnightMinus (mm : ℕ) : List.count ':' (midnightMinus mm) = 2 := by
  unfold midnightMinus
  have h1 : ':' ∉ fmt02 ((1440 - mm % 1440) % 1440 / 60) := by
    intro hc
    exact fmt02_no_colon _ _ hc rfl
  have h2 : ':' ∉ fmt02 ((1440 - mm % 1440) % 1440 % 60) := by
    intro hc
    exact fmt02_no_colon _ _ hc rfl
  have h3 : ':' ∉ fmt02 0 := by
    intro hc
    exact fmt02_no_colon _ _ hc rfl
  rw [List.count_append, List.count_cons, count_colon_one h1 h2, List.count_eq_zero.mpr h3]
  simp

theorem zfill2_fmt02 {n : ℕ} (h : n ≤ 99) : zfill2 (fmt02 n) = fmt02 n :=
  zfill2_noop (by rw [fmt02_length h])

theorem fmt02_length_pos (n : ℕ) : 1 ≤ (fmt02 n).length := by
  simp only [fmt02, padZero, List.length_append, List.length_replicate]
  have h := natDigits_ne_nil n
  have : (natDigits n).length ≠ 0 := by simpa [List.length_eq_zero]
  omega

theorem fmt02_head (n : ℕ) (h : n ≤ 99) :
    (fmt02 n).head? = some (digitChar (n / 10)) := by
  rw [fmt02_eq_pair h]
  rfl

theorem pyInt_fmt02 {n : ℕ} (h : n ≤ 99) : pyInt (fmt02 n) = some n := by
  unfold pyInt
  rw [if_pos ⟨by
      have := fmt02_length h
      intro hc
      rw [hc] at this
      simp at this,
    List.all_eq_true.mpr (fmt02_all_isDig n)⟩, charsVal_fmt02 h]

/-- `formatEntry` on an in-range time (hour 00..23): no normalization
fires and the timestamp is the rendered date plus the time with seconds
completed. -/
theorem formatEntry_plain {e : RawEntry} {D : CivilDate} {m : ℤ}
    (hdate : e.date = renderDate D) (hD : ValidDate D) (hy : 1000 ≤ D.y)
    (htime : e.time = minutes_to_time m) (hm0 : 0 ≤ m) (hm1 : m < 1440) :
    formatEntry e = some
      { time := renderISOdate D ++ ' ' :: fmt02 (m.natAbs / 60) ++
          ':' :: fmt02 (m.natAbs % 60) ++ [':', '0', '0', '+', '0', '0', ':', '0', '0'],
        sensor := e.sensor.take 3,
        data := formatMeas e.measurement (precForSensor (e.sensor.take 3)) } := by
  have hh99 : m.natAbs / 60 ≤ 99 := by omega
  have hne24 : ¬ (fmt02 (m.natAbs / 60) = ['2', '4']) := by
    intro hc
    have := (fmt02_eq_24_iff _).mp hc
    omega
  have hneg : ¬ ((fmt02 (m.natAbs / 60)).head? = some '-') := by
    rw [fmt02_head _ hh99]
    intro hc
    have hdd : digitChar (m.natAbs / 60 / 10) = '-' := by simpa using hc
    have hd := digitChar_isDig (show m.natAbs / 60 / 10 < 10 by omega)
    rw [hdd] at hd
    simp [isDig] at hd
  unfold formatEntry
  rw [htime, minutes_to_time_split, if_neg (not_lt.mpr hm0)]
  dsimp only [List.nil_append]
  rw [zfill2_fmt02 hh99]
  rw [show normTime24 e.date (fmt02 (m.natAbs / 60)) (fmt02 (m.natAbs % 60)) =
      some (e.date, fmt02 (m.natAbs / 60) ++ ':' :: fmt02 (m.natAbs % 60)) from by
    unfold normTime24
    rw [if_neg hne24]]
  dsimp only
  rw [show normTimeNeg e.date (fmt02 (m.natAbs / 60)) (fmt02 (m.natAbs % 60))
      (fmt02 (m.natAbs / 60) ++ ':' :: fmt02 (m.natAbs % 60)) =
      some (e.date, fmt02 (m.natAbs / 60) ++ ':' :: fmt02 (m.natAbs % 60)) from by
    unfold normTimeNeg
    rw [if_neg hneg]]
  dsimp only
  rw [if_pos (count_colon_one (fun hc => fmt02_no_colon _ _ hc rfl)
    (fun hc => fmt02_no_colon _ _ hc rfl)), hdate, parse_renderDate hD hy]
  simp [List.append_assoc]

/-- `formatEntry` when the rendered hour token is exactly `"24"`
(minutes in 1440..1499): the date advances one day and the time becomes
`00:MM:00`. -/
theorem formatEntry_hour24 {e : RawEntry} {D : CivilDate} {m : ℤ}
    (hdate : e.date = renderDate D) (hD : ValidDate D) (hy : 1000 ≤ D.y)
    (htime : e.time = minutes_to_time m) (hm0 : 1440 ≤ m) (hm1 : m ≤ 1499)
    (hbnd : ¬ (daysFromCivil D.y D.m D.d + 1 < minDayZ ∨
      maxDayZ < daysFromCivil D.y D.m D.d + 1))
    (hD1 : ValidDate (civilFromDays (daysFromCivil D.y D.m D.d + 1)))
    (hy1 : 1000 ≤ (civilFromDays (daysFromCivil D.y D.m D.d + 1)).y) :
    formatEntry e = some
      { time := renderISOdate (civilFromDays (daysFromCivil D.y D.m D.d + 1)) ++
          ' ' :: '0' :: '0' :: ':' :: fmt02 (m.natAbs % 60) ++
          [':', '0', '0', '+', '0', '0', ':', '0', '0'],
        sensor := e.sensor.take 3,
        data := formatMeas e.measurement (precForSensor (e.sensor.take 3)) } := by
  have hh24 : m.natAbs / 60 = 24 := by omega
  unfold formatEntry
  rw [htime, minutes_to_time_split, if_neg (not_lt.mpr (by omega : (0 : ℤ) ≤ m))]
  dsimp only [List.nil_append]
  rw [hh24, zfill2_fmt02 (by omega)]
  rw [show normTime24 e.date (fmt02 24) (fmt02 (m.natAbs % 60)) =
      some (renderDate (civilFromDays (daysFromCivil D.y D.m D.d + 1)),
        '0' :: '0' :: ':' :: fmt02 (m.natAbs % 60)) from by
    unfold normTime24
    rw [if_pos (by decide), hdate, addDaysStr_render hD hy 1 hbnd]
    rfl]
  dsimp only
  rw [show normTimeNeg (renderDate (civilFromDays (daysFromCivil D.y D.m D.d + 1)))
      (fmt02 24) (fmt02 (m.natAbs % 60)) ('0' :: '0' :: ':' :: fmt02 (m.natAbs % 60)) =
      some (renderDate (civilFromDays (daysFromCivil D.y D.m D.d + 1)),
        '0' :: '0' :: ':' :: fmt02 (m.natAbs % 60)) from by
    unfold normTimeNeg
    rw [if_neg (by decide)]]
  dsimp only
  have hcount : List.count ':' ('0' :: '0' :: ':' :: fmt02 (m.natAbs % 60)) = 1 := by
    have := count_colon_one (a := ['0', '0'])
      (by intro hc; simp at hc)
      (fun hc => fmt02_no_colon (m.natAbs % 60) _ hc rfl)
    simpa using this
  rw [if_pos hcount, parse_renderDate hD1 hy1]
  simp [List.append_assoc]

/-- `formatEntry` when the hour token begins with `'-'` (negative
minutes): the date steps back one day and the time-of-day becomes
midnight minus the minutes field. -/
theorem formatEntry_negative {e : RawEntry} {D : CivilDate} {m : ℤ}
    (hdate : e.date = renderDate D) (hD : ValidDate D) (hy : 1000 ≤ D.y)
    (htime : e.time = minutes_to_time m) (hm0 : m < 0)
    (hbnd : ¬ (daysFromCivil D.y D.m D.d + -1 < minDayZ ∨
      maxDayZ < daysFromCivil D.y D.m D.d + -1))
    (hD2 : ValidDate (civilFromDays (daysFromCivil D.y D.m D.d + -1)))
    (hy2 : 1000 ≤ (civilFromDays (daysFromCivil D.y D.m D.d + -1)).y) :
    formatEntry e = some
      { time := renderISOdate (civilFromDays (daysFromCivil D.y D.m D.d + -1)) ++
          ' ' :: midnightMinus (m.natAbs % 60) ++ ['+', '0', '0', ':', '0', '0'],
        sensor := e.sensor.take 3,
        data := formatMeas e.measurement (precForSensor (e.sensor.take 3)) } := by
  unfold formatEntry
  rw [htime, minutes_to_time_split, if_pos hm0]
  dsimp only
  have hlen : 2 ≤ (['-'] ++ fmt02 (m.natAbs / 60)).length := by
    have := fmt02_length_pos (m.natAbs / 60)
    simp only [List.length_append, List.length_cons, List.length_nil]
    omega
  rw [zfill2_noop hlen]
  have hne24 : ¬ ((['-'] ++ fmt02 (m.natAbs / 60)) = ['2', '4']) := by
    intro hc
    simp at hc
  rw [show normTime24 e.date (['-'] ++ fmt02 (m.natAbs / 60)) (fmt02 (m.natAbs % 60)) =
      some (e.date, (['-'] ++ fmt02 (m.natAbs / 60)) ++ ':' :: fmt02 (m.natAbs % 60)) from by
    unfold normTime24
    rw [if_neg hne24]]
  dsimp only
  rw [show normTimeNeg e.date (['-'] ++ fmt02 (m.natAbs / 60)) (fmt02 (m.natAbs % 60))
      ((['-'] ++ fmt02 (m.natAbs / 60)) ++ ':' :: fmt02 (m.natAbs % 60)) =
      some (renderDate (civilFromDays (daysFromCivil D.y D.m D.d + -1)),
        midnightMinus (m.natAbs % 60)) from by
    unfold normTimeNeg
    rw [if_pos (by simp), pyInt_fmt02 (by omega : m.natAbs % 60 ≤ 99), hdate,
      addDaysStr_render hD hy (-1) hbnd]]
  dsimp only
  have hcnt : List.count ':' (midnightMinus (m.natAbs % 60)) = 2 :=
    count_colon_midnightMinus _
  rw [if_neg (by rw [hcnt]; omega), parse_renderDate hD2 hy2]

/-! ### Claim C3: hour range of emitted timestamps -/

/-- Counterexample to C3: a block whose decoded start time is 1501
minutes (corrected to 1500, i.e. the token `"25:00:00"`) flows through
the formatter unnormalized — the emitted timestamp has hour component
25, outside [0, 23]. -/
theorem claim_C3_counterexample :
    decodeAndFormat ['0','C','1','+','A','A','B','W',']','A','A','A','A','A'] 2024 0 =
      some [{ time := ['2','0','2','4','-','0','3','-','0','6',' ','2','5',':','0','0',':','0','0','+','0','0',':','0','0'],
              sensor := ['P','R','S'],
              data := ['4','.','1','6','1'] }] ∧
    charsVal (pySlice ['2','0','2','4','-','0','3','-','0','6',' ','2','5',':','0','0',':','0','0','+','0','0',':','0','0'] 11 13) = 25 := by
  refine ⟨by decide, by decide⟩

/-- C3 (amended).  The hour-normalization handles only the exact token
`"24"` and a leading `'-'`: for a sample carrying a rendered four-digit-year
date whose whole-minute time is below 1500 (hour token at most 24) and
whose date admits the one-day shifts within four-digit years, the emitted
timestamp is a valid calendar date-time whose hour component lies in
[0, 23]; times of 1500 minutes or more (hour tokens of 25 and beyond)
pass through with an out-of-range hour. -/
theorem claim_C3_amended :
    ∀ (e : RawEntry) (D : CivilDate) (m : ℤ),
      e.date = renderDate D → ValidDate D → 1000 ≤ D.y →
      e.time = minutes_to_time m → m < 1500 →
      ¬ (daysFromCivil D.y D.m D.d + 1 < minDayZ ∨
        maxDayZ < daysFromCivil D.y D.m D.d + 1) →
      ValidDate (civilFromDays (daysFromCivil D.y D.m D.d + 1)) →
      1000 ≤ (civilFromDays (daysFromCivil D.y D.m D.d + 1)).y →
      ¬ (daysFromCivil D.y D.m D.d + -1 < minDayZ ∨
        maxDayZ < daysFromCivil D.y D.m D.d + -1) →
      ValidDate (civilFromDays (daysFromCivil D.y D.m D.d + -1)) →
      1000 ≤ (civilFromDays (daysFromCivil D.y D.m D.d + -1)).y →
      ∃ (r : FormattedRecord) (E : CivilDate) (hh mm2 : ℕ),
        formatEntry e = some r ∧ ValidDate E ∧ hh ≤ 23 ∧ mm2 ≤ 59 ∧
        r.time = renderISOdate E ++ ' ' :: fmt02 hh ++ ':' :: fmt02 mm2 ++
          [':', '0', '0', '+', '0', '0', ':', '0', '0'] := by
  intro e D m hdate hD hy htime hm hb1 hv1 hy1 hb2 hv2 hy2
  rcases lt_or_le m 0 with hneg | hge
  · refine ⟨_, civilFromDays (daysFromCivil D.y D.m D.d + -1),
      (1440 - m.natAbs % 60 % 1440) % 1440 / 60, (1440 - m.natAbs % 60 % 1440) % 1440 % 60,
      formatEntry_negative hdate hD hy htime hneg hb2 hv2 hy2, hv2, by omega, by omega, ?_⟩
    simp only [midnightMinus, show fmt02 0 = ['0', '0'] from rfl,
      List.cons_append, List.append_assoc, List.nil_append]
  · rcases lt_or_le m 1440 with hlt | hhi
    · refine ⟨_, D, m.natAbs / 60, m.natAbs % 60,
        formatEntry_plain hdate hD hy htime hge hlt, hD, by omega, by omega, rfl⟩
    · refine ⟨_, civilFromDays (daysFromCivil D.y D.m D.d + 1), 0, m.natAbs % 60,
        formatEntry_hour24 hdate hD hy htime hhi (by omega) hb1 hv1 hy1, hv1,
        by omega, by omega, ?_⟩
      simp only [show fmt02 0 = ['0', '0'] from rfl, List.cons_append, List.append_assoc,
        List.nil_append]

/-- Witness for the amended C3 on a plain in-range time. -/
theorem claim_C3_amended_witness :
    ∃ (r : FormattedRecord) (E : CivilDate) (hh mm2 : ℕ),
      formatEntry { sensor := ['P','R','S'], date := ['0','3','/','0','6','/','2','0','2','4'], time := ['0','1',':','0','4',':','0','0'], measurement := some ((4161 : ℤ), 1000) } = some r ∧
      ValidDate E ∧ hh ≤ 23 ∧ mm2 ≤ 59 ∧
      r.time = renderISOdate E ++ ' ' :: fmt02 hh ++ ':' :: fmt02 mm2 ++
        [':', '0', '0', '+', '0', '0', ':', '0', '0'] :=
  claim_C3_amended _ ⟨2024, 3, 6⟩ 64 (by decide) (by decide) (by decide) (by decide)
    (by decide) (by decide) (by decide) (by decide) (by decide) (by decide) (by decide)

/-! ### Claim C7: the two hour-normalization rules -/

/-- C7.  When a sample's rendered hour token is exactly `"24"` (whole
minutes 1440..1499) the formatter advances the date by one calendar day
and replaces the time with `00:MM` (then completes seconds); when the
hour token begins with `'-'` (negative minutes) it sets the time-of-day
to midnight minus the minutes-before-the-hour component, steps the date
back one calendar day, and renders the corrected `HH:MM:SS`. -/
theorem claim_C7_hour_normalization :
    (∀ (e : RawEntry) (D : CivilDate) (m : ℤ),
      e.date = renderDate D → ValidDate D → 1000 ≤ D.y → e.time = minutes_to_time m →
      1440 ≤ m → m ≤ 1499 →
      ¬ (daysFromCivil D.y D.m D.d + 1 < minDayZ ∨
        maxDayZ < daysFromCivil D.y D.m D.d + 1) →
      ValidDate (civilFromDays (daysFromCivil D.y D.m D.d + 1)) →
      1000 ≤ (civilFromDays (daysFromCivil D.y D.m D.d + 1)).y →
      ∃ r, formatEntry e = some r ∧
        r.time = renderISOdate (civilFromDays (daysFromCivil D.y D.m D.d + 1)) ++
          ' ' :: '0' :: '0' :: ':' :: fmt02 (m.natAbs % 60) ++
          [':', '0', '0', '+', '0', '0', ':', '0', '0']) ∧
    (∀ (e : RawEntry) (D : CivilDate) (m : ℤ),
      e.date = renderDate D → ValidDate D → 1000 ≤ D.y → e.time = minutes_to_time m →
      m < 0 →
      ¬ (daysFromCivil D.y D.m D.d + -1 < minDayZ ∨
        maxDayZ < daysFromCivil D.y D.m D.d + -1) →
      ValidDate (civilFromDays (daysFromCivil D.y D.m D.d + -1)) →
      1000 ≤ (civilFromDays (daysFromCivil D.y D.m D.d + -1)).y →
      ∃ r, formatEntry e = some r ∧
        r.time = renderISOdate (civilFromDays (daysFromCivil D.y D.m D.d + -1)) ++
          ' ' :: midnightMinus (m.natAbs % 60) ++ ['+', '0', '0', ':', '0', '0']) := by
  constructor
  · intro e D m hdate hD hy htime hm0 hm1 hbnd hD1 hy1
    exact ⟨_, formatEntry_hour24 hdate hD hy htime hm0 hm1 hbnd hD1 hy1, rfl⟩
  · intro e D m hdate hD hy htime hm0 hbnd hD2 hy2
    exact ⟨_, formatEntry_negative hdate hD hy htime hm0 hbnd hD2 hy2, rfl⟩

/-- Witness for C7 on 2024-03-06 with times 24:00 and -00:05. -/
theorem claim_C7_hour_normalization_witness :
    (∃ r, formatEntry
        { sensor := ['P','R','S'], date := ['0','3','/','0','6','/','2','0','2','4'],
          time := ['2','4',':','0','0',':','0','0'],
          measurement := some ((4161 : ℤ), 1000) } = some r ∧
      r.time = renderISOdate (civilFromDays (daysFromCivil 2024 3 6 + 1)) ++
        ' ' :: '0' :: '0' :: ':' :: fmt02 ((1440 : ℤ).natAbs % 60) ++
        [':', '0', '0', '+', '0', '0', ':', '0', '0']) ∧
    (∃ r, formatEntry
        { sensor := ['P','R','S'], date := ['0','3','/','0','6','/','2','0','2','4'],
          time := ['-','0','0',':','0','5',':','0','0'],
          measurement := some ((4161 : ℤ), 1000) } = some r ∧
      r.time = renderISOdate (civilFromDays (daysFromCivil 2024 3 6 + -1)) ++
        ' ' :: midnightMinus ((-5 : ℤ).natAbs % 60) ++ ['+', '0', '0', ':', '0', '0']) :=
  ⟨claim_C7_hour_normalization.1 _ ⟨2024, 3, 6⟩ 1440 (by decide) (by decide) (by decide)
      (by decide) (by decide) (by decide) (by decide) (by decide) (by decide),
    claim_C7_hour_normalization.2 _ ⟨2024, 3, 6⟩ (-5) (by decide) (by decide) (by decide)
      (by decide) (by decide) (by decide) (by decide) (by decide)⟩

end PBC
